import Mathlib

/-!
Verification of the two maintenance scripts of this repository:
`aplicar_tema_automatico.py` (theme injector) and `arreglar_formato.py`
(formatting fixer).  File contents are modelled as `List Char`; each
script's per-file transformation is embedded as a pure function on the
content, and the directory-level drivers as functions on a list of
(name, content) entries.

The Python scripts use `re.search` / `re.sub` with three fixed patterns.
Those regexes are embedded by hand with Python's leftmost-match,
greedy/lazy backtracking semantics specialised to each concrete pattern:

* `(Material\+Symbols\+Outlined.*?rel="stylesheet"\s*/?>\s*)` with
  `re.DOTALL`: leftmost start of the literal `Material+Symbols+Outlined`,
  then the lazy `.*?` takes the least gap such that the tail
  `rel="stylesheet"\s*/?>\s*` matches; the tail itself is deterministic
  (maximal whitespace run, then an optional `/` immediately followed by
  `>`, then a maximal trailing whitespace run).
* `(</script>\s*)(</body>)` with `re.DOTALL | re.IGNORECASE`: leftmost
  position where `</script>` (case-insensitively) is followed by a
  whitespace run and then `</body>` (case-insensitively).
* `(themeResources}"></div>)\s*\n\s*(<script)` in `re.sub`: the closing
  div literal, a whitespace run containing at least one newline, then
  `<script`; replaced by the div literal, a newline, four spaces and
  `<script`, scanning left to right over non-overlapping matches.

`\s` is modelled as the ASCII whitespace characters (space, tab, newline,
carriage return, vertical tab, form feed) and `re.IGNORECASE` as ASCII
case folding; the repository's template files are ASCII in the relevant
positions.
-/

/-- ASCII model of Python's `\s` character class. -/
def isPySpace (c : Char) : Bool :=
  c == ' ' || c == '\t' || c == '\n' || c == '\r' || c == '\x0b' || c == '\x0c'

/-- Plain character equality as a matcher. -/
def chEq (a b : Char) : Bool := a == b

/-- ASCII case-insensitive character equality, modelling `re.IGNORECASE`
on the ASCII pattern characters used by the script. -/
def ciEq (a b : Char) : Bool :=
  a == b ||
    (a.toNat + 32 == b.toNat && 65 ≤ a.toNat && a.toNat ≤ 90) ||
    (b.toNat + 32 == a.toNat && 65 ≤ b.toNat && b.toNat ≤ 90)

/-- `matchPre eqv p l` holds when the text `l` starts with the pattern `p`,
comparing characters with `eqv`. -/
def matchPre (eqv : Char → Char → Bool) : List Char → List Char → Bool
  | [], _ => true
  | _ :: _, [] => false
  | p :: ps, c :: cs => eqv p c && matchPre eqv ps cs

/-- Python's substring test `p in l` (used for the marker guards). -/
def subStr (p : List Char) : List Char → Bool
  | [] => matchPre chEq p []
  | c :: cs => matchPre chEq p (c :: cs) || subStr p cs

/-- Length of the maximal whitespace run at the front of `l`
(the text consumed by a greedy `\s*`). -/
def wsLen (l : List Char) : Nat := (l.takeWhile isPySpace).length

/-- Leftmost-match scan of `re.search`: try the per-position matcher at
offsets 0, 1, 2, ...; a successful matcher returns a value relative to
its own position, which the scan shifts back to an absolute offset. -/
def searchGen (stepFn : List Char → Option Nat) : List Char → Option Nat
  | [] => none
  | c :: cs =>
    match stepFn (c :: cs) with
    | some n => some n
    | none => (searchGen stepFn cs).map (· + 1)

/-! ### Patterns and fragments of `aplicar_tema_automatico.py` -/

/-- `TAILWIND_PATTERN`: the regex `cdn\.tailwindcss\.com` is a literal. -/
def tailwindPat : List Char := "cdn.tailwindcss.com".toList

/-- `THEME_RESOURCES_PATTERN`. -/
def resourcesPat : List Char := "fragments/theme :: themeResources".toList

/-- `THEME_SCRIPT_PATTERN`. -/
def scriptPat : List Char := "fragments/theme :: themeScript".toList

/-- The literal head of the Material-icons regex. -/
def materialLit : List Char := "Material+Symbols+Outlined".toList

/-- The literal part of the regex tail, `rel="stylesheet"`. -/
def relStylesheet : List Char := "rel=\"stylesheet\"".toList

/-- `THEME_RESOURCES` (the head snippet; `{`/`}` written as escapes). -/
def themeResourcesFrag : List Char :=
  "    <!-- Sistema de Temas (Modo Claro/Oscuro) -->\n    <div th:replace=\"~\x7bfragments/theme :: themeResources\x7d\"></div>".toList

/-- `THEME_SCRIPT` (the body snippet, starting with a newline). -/
def themeScriptFrag : List Char :=
  "\n    <!-- Script del Sistema de Temas -->\n    <div th:replace=\"~\x7bfragments/theme :: themeScript\x7d\"></div>".toList

/-- The chunk inserted into the head: `'\n' + THEME_RESOURCES + '\n'`. -/
def headIns : List Char := '\n' :: (themeResourcesFrag ++ ['\n'])

/-- The chunk inserted before `</body>`: `THEME_SCRIPT + '\n  '`. -/
def scriptIns : List Char := themeScriptFrag ++ "\n  ".toList

/-- `</script>` as a case-insensitive pattern. -/
def scriptCloseLit : List Char := "</script>".toList

/-- `</body>` as a case-insensitive pattern. -/
def bodyCloseLit : List Char := "</body>".toList

/-! ### The injector's regex searches -/

/-- One tail attempt of `rel="stylesheet"\s*/?>\s*` at the current
position: the literal, a maximal whitespace run, an optional `/`
immediately before `>`, then a maximal trailing whitespace run.
Returns the number of characters consumed. -/
def tailMatchAt (l : List Char) : Option Nat :=
  if matchPre chEq relStylesheet l then
    let r := l.drop relStylesheet.length
    let w := wsLen r
    match r.drop w with
    | '/' :: '>' :: rest => some (relStylesheet.length + w + 2 + wsLen rest)
    | '>' :: rest => some (relStylesheet.length + w + 1 + wsLen rest)
    | _ => none
  else none

/-- The lazy `.*?`: least offset at which the tail matches, returning the
end of that tail match relative to the scan start. -/
def tailSearchEnd (l : List Char) : Option Nat := searchGen tailMatchAt l

/-- Full Material-icons regex attempt at the current position; returns the
length of the whole match (which is `material_match.end()` relative to the
start position). -/
def materialMatchAt (l : List Char) : Option Nat :=
  if matchPre chEq materialLit l then
    (tailSearchEnd (l.drop materialLit.length)).map (fun n => materialLit.length + n)
  else none

/-- `re.search(r'(Material\+Symbols\+Outlined.*?rel="stylesheet"\s*/?>\s*)',
content, re.DOTALL)`, returning `material_match.end()`. -/
def materialSearchEnd (l : List Char) : Option Nat := searchGen materialMatchAt l

/-- One attempt of `(</script>\s*)(</body>)` (case-insensitive) at the
current position; returns the offset of the start of group 2 (`</body>`)
relative to the attempt position. -/
def scriptBodyMatchAt (l : List Char) : Option Nat :=
  if matchPre ciEq scriptCloseLit l then
    let r := l.drop scriptCloseLit.length
    let w := wsLen r
    if matchPre ciEq bodyCloseLit (r.drop w) then some (scriptCloseLit.length + w)
    else none
  else none

/-- `re.search(r'(</script>\s*)(</body>)', content, re.DOTALL | re.IGNORECASE)`,
returning `body_match.start(2)`. -/
def scriptBodySearch (l : List Char) : Option Nat := searchGen scriptBodyMatchAt l

/-! ### `update_html_file` -/

/-- Outcome of `update_html_file`.  The source returns the string
`'skipped'` both for the early marker guard (printed as "ya tiene el
sistema de temas") and for the no-anchor case (printed as "No se pudo
modificar"); the two constructors keep the two reports apart.  `errored`
models the `except` branch, which the pure embedding never takes. -/
inductive UpdateStatus
  | updated
  | skippedAlready
  | skippedNoChange
  | errored
  deriving DecidableEq

/-- Step 1 of `update_html_file`: insert `'\n' + THEME_RESOURCES + '\n'`
at `material_match.end()` when the Material-icons regex matches. -/
def applyHead (content : List Char) : List Char × Bool :=
  match materialSearchEnd content with
  | some p => (content.take p ++ headIns ++ content.drop p, true)
  | none => (content, false)

/-- Step 2 of `update_html_file`: unless the theme-script marker is
present, insert `THEME_SCRIPT + '\n  '` at `body_match.start(2)`. -/
def applyScript (content : List Char) : List Char × Bool :=
  if subStr scriptPat content then (content, false)
  else
    match scriptBodySearch content with
    | some q => (content.take q ++ scriptIns ++ content.drop q, true)
    | none => (content, false)

/-- `update_html_file`, as a pure function from file content to the new
content and the reported outcome. -/
def update_html_file (content : List Char) : List Char × UpdateStatus :=
  if subStr resourcesPat content then (content, .skippedAlready)
  else
    let r1 := applyHead content
    let r2 := applyScript r1.1
    if r1.2 || r2.2 then (r2.1, .updated) else (r2.1, .skippedNoChange)

/-! ### The directory drivers -/

/-- A file of the scanned tree: a path and its content. -/
structure FileEntry where
  name : List Char
  content : List Char
  deriving DecidableEq

/-- `file.endswith('.html')`. -/
def isHtmlName (n : List Char) : Bool := ".html".toList.isSuffixOf n

/-- The filter applied by `find_html_files_with_tailwind` to each file. -/
def isCandidate (f : FileEntry) : Bool :=
  isHtmlName f.name && subStr tailwindPat f.content

/-- `find_html_files_with_tailwind`: the files with an `.html` name whose
content matches the Tailwind CDN pattern, in traversal order. -/
def find_html_files_with_tailwind (tree : List FileEntry) : List FileEntry :=
  tree.filter isCandidate

/-- The per-file effect of `main`: candidate files are rewritten with the
result of `update_html_file`, all other files keep their bytes. -/
def mainPerFile (f : FileEntry) : FileEntry :=
  if isCandidate f then { f with content := (update_html_file f.content).1 } else f

/-- The counters printed in `main`'s summary. -/
structure Summary where
  updated : Nat
  skipped : Nat
  errors : Nat
  deriving DecidableEq

/-- `main` of `aplicar_tema_automatico.py`: process every candidate file
and tally the outcomes. -/
def runMain (tree : List FileEntry) : List FileEntry × Summary :=
  let statuses := (find_html_files_with_tailwind tree).map
    (fun f => (update_html_file f.content).2)
  (tree.map mainPerFile,
   { updated := statuses.countP (fun s => s == .updated)
     skipped := statuses.countP
       (fun s => s == .skippedAlready || s == .skippedNoChange)
     errors := statuses.countP (fun s => s == .errored) })

/-! ### `arreglar_formato.py` -/

/-- The closing-div literal of the fixer's patterns. -/
def divClose : List Char := "themeResources\x7d\"></div>".toList

/-- The Unix-line-ending malformed adjacency checked by the guard. -/
def malLF : List Char := divClose ++ "\n<script".toList

/-- The Windows-line-ending malformed adjacency checked by the guard. -/
def malCRLF : List Char := divClose ++ "\r\n<script".toList

/-- The `<script` literal of the substitution pattern. -/
def scriptOpenLit : List Char := "<script".toList

/-- The replacement `\1\n    \2`. -/
def replChunk : List Char := divClose ++ "\n    ".toList ++ scriptOpenLit

/-- One attempt of `(themeResources}"></div>)\s*\n\s*(<script)` at the
current position: the div literal, then a whitespace run that must
contain a newline, then `<script`.  (With backtracking, `\s*\n\s*`
followed by `<script` consumes exactly the maximal whitespace run, and
matches iff that run contains a newline and is followed by `<script`.)
Returns the number of characters consumed. -/
def tryMal (l : List Char) : Option Nat :=
  if matchPre chEq divClose l then
    let r := l.drop divClose.length
    let w := wsLen r
    if (r.take w).contains '\n' && matchPre chEq scriptOpenLit (r.drop w) then
      some (divClose.length + w + scriptOpenLit.length)
    else none
  else none

/-- `re.sub` scan with explicit fuel (every match consumes at least one
character, so `l.length` fuel always suffices): replace the leftmost
match, continue after its end, copy unmatched characters. -/
def subAllF : Nat → List Char → List Char
  | 0, l => l
  | _ + 1, [] => []
  | f + 1, c :: cs =>
    match tryMal (c :: cs) with
    | some n => replChunk ++ subAllF f ((c :: cs).drop n)
    | none => c :: subAllF f cs

/-- The global substitution
`re.sub(r'(themeResources}"></div>)\s*\n\s*(<script)', r'\1\n    \2', content)`. -/
def subAll (l : List Char) : List Char := subAllF l.length l

/-- `fix_theme_resources_format` as a pure function from content to the
new content and the returned Boolean (`True` = "Formato corregido",
`False` = "OK", file untouched). -/
def fix_theme_resources_format (content : List Char) : List Char × Bool :=
  if !subStr malLF content && !subStr malCRLF content then (content, false)
  else (subAll content, true)

/-! ### Verification-side definitions

Decidable side conditions used to reason about pattern occurrences in a
spliced string `a ++ x ++ b` (insertion of a chunk `x`), and an
occurrence counter. -/

/-- No occurrence of `p` can start strictly before an inserted chunk `x`
and reach into it: no proper nonempty suffix of `p` matches a prefix of
`x`. -/
def noLeftStraddle (eqv : Char → Char → Bool) (p x : List Char) : Bool :=
  (List.range p.length).all fun m =>
    m == 0 || !(matchPre eqv ((p.drop m).take x.length) x)

/-- No occurrence of `p` can start inside the chunk `x` (neither fully
inside nor reaching past its right end). -/
def noRightOcc (eqv : Char → Char → Bool) (p x : List Char) : Bool :=
  (List.range x.length).all fun d =>
    !(matchPre eqv (p.take (x.length - d)) (x.drop d))

/-- No occurrence of `p` can start inside the chunk `x` and reach past
its right end (occurrences fully inside `x` are allowed). -/
def noRightStraddle (eqv : Char → Char → Bool) (p x : List Char) : Bool :=
  (List.range x.length).all fun d =>
    decide (p.length + d ≤ x.length) ||
      !(matchPre eqv (p.take (x.length - d)) (x.drop d))

/-- Number of positions of `l` at which the pattern `p` occurs. -/
def countOcc (p : List Char) : List Char → Nat
  | [] => if matchPre chEq p [] then 1 else 0
  | c :: cs => (if matchPre chEq p (c :: cs) then 1 else 0) + countOcc p cs

/-! ### Basic properties of the matching primitives -/

theorem matchPre_pos_nil {eqv : Char → Char → Bool} {p : List Char}
    (hp : 0 < p.length) : matchPre eqv p [] = false := by
  cases p with
  | nil => simp at hp
  | cons a ps => simp [matchPre]

theorem matchPre_length {eqv : Char → Char → Bool} {p l : List Char}
    (h : matchPre eqv p l = true) : p.length ≤ l.length := by
  induction p generalizing l with
  | nil => simp
  | cons a ps ih =>
    cases l with
    | nil => simp [matchPre] at h
    | cons c cs =>
      simp only [matchPre, Bool.and_eq_true] at h
      have := ih h.2
      simp only [List.length_cons]
      omega

theorem matchPre_eq_false_of_lt {eqv : Char → Char → Bool} {p l : List Char}
    (h : l.length < p.length) : matchPre eqv p l = false := by
  cases hm : matchPre eqv p l with
  | false => rfl
  | true => exact absurd (matchPre_length hm) (by omega)

theorem drop_append_ge {u v : List Char} {n : Nat} (h : u.length ≤ n) :
    (u ++ v).drop n = v.drop (n - u.length) := by
  nth_rewrite 1 [show n = u.length + (n - u.length) by omega]
  rw [List.drop_append]

theorem matchPre_append_left {eqv : Char → Char → Bool} {p u : List Char}
    (v : List Char) (h : p.length ≤ u.length) :
    matchPre eqv p (u ++ v) = matchPre eqv p u := by
  induction p generalizing u with
  | nil => simp [matchPre]
  | cons a ps ih =>
    cases u with
    | nil => simp at h
    | cons c cs =>
      simp only [List.cons_append, matchPre, List.append_eq]
      rw [ih]
      simp only [List.length_cons] at h
      omega

theorem matchPre_split {eqv : Char → Char → Bool} {p u v : List Char}
    (h : matchPre eqv p (u ++ v) = true) (hu : u.length ≤ p.length) :
    matchPre eqv (p.drop u.length) v = true := by
  induction u generalizing p with
  | nil => simpa using h
  | cons c cs ih =>
    cases p with
    | nil => simp at hu
    | cons a ps =>
      simp only [List.cons_append, matchPre, Bool.and_eq_true] at h
      simp only [List.length_cons, List.drop_succ_cons]
      exact ih h.2 (by simp only [List.length_cons] at hu; omega)

theorem matchPre_take_append {eqv : Char → Char → Bool} {p z b : List Char}
    (h : matchPre eqv p (z ++ b) = true) :
    matchPre eqv (p.take z.length) z = true := by
  induction p generalizing z with
  | nil => simp [matchPre]
  | cons a ps ih =>
    cases z with
    | nil => simp [matchPre]
    | cons c cs =>
      simp only [List.cons_append, matchPre, Bool.and_eq_true] at h
      simp only [List.length_cons, List.take_succ_cons, matchPre, Bool.and_eq_true]
      exact ⟨h.1, ih h.2⟩

theorem matchPre_of_eqv_refl {eqv : Char → Char → Bool}
    (hr : ∀ c, eqv c c = true) (p t : List Char) :
    matchPre eqv p (p ++ t) = true := by
  induction p with
  | nil => simp [matchPre]
  | cons a ps ih => simp [matchPre, hr, ih]

theorem chEq_refl (c : Char) : chEq c c = true := by simp [chEq]

theorem ciEq_refl (c : Char) : ciEq c c = true := by simp [ciEq]

theorem matchPre_getElem? {eqv : Char → Char → Bool} {p l : List Char}
    (h : matchPre eqv p l = true) :
    ∀ j, j < p.length → ∃ cp c, p[j]? = some cp ∧ l[j]? = some c ∧ eqv cp c = true := by
  induction p generalizing l with
  | nil => intro j hj; simp at hj
  | cons a ps ih =>
    cases l with
    | nil => simp [matchPre] at h
    | cons c cs =>
      simp only [matchPre, Bool.and_eq_true] at h
      intro j hj
      cases j with
      | zero => exact ⟨a, c, by simp, by simp, h.1⟩
      | succ k =>
        simp only [List.getElem?_cons_succ]
        exact ih h.2 k (by simp only [List.length_cons] at hj; omega)

theorem matchPre_chEq_eq {p l : List Char} (h : matchPre chEq p l = true) :
    l.take p.length = p := by
  induction p generalizing l with
  | nil => simp
  | cons a ps ih =>
    cases l with
    | nil => simp [matchPre] at h
    | cons c cs =>
      simp only [matchPre, Bool.and_eq_true, chEq, beq_iff_eq] at h
      simp [List.take_succ_cons, ih h.2, h.1]

/-! ### `subStr` -/

theorem subStr_iff {p l : List Char} :
    subStr p l = true ↔ ∃ i, matchPre chEq p (l.drop i) = true := by
  induction l with
  | nil =>
    simp only [subStr]
    constructor
    · intro h; exact ⟨0, h⟩
    · rintro ⟨i, hi⟩; simpa [List.drop_nil] using hi
  | cons c cs ih =>
    simp only [subStr, Bool.or_eq_true, ih]
    constructor
    · rintro (h | ⟨i, hi⟩)
      · exact ⟨0, h⟩
      · exact ⟨i + 1, by simpa using hi⟩
    · rintro ⟨i, hi⟩
      cases i with
      | zero => exact Or.inl (by simpa using hi)
      | succ k => exact Or.inr ⟨k, by simpa using hi⟩

theorem subStr_append_right {p v : List Char} (u : List Char)
    (h : subStr p v = true) : subStr p (u ++ v) = true := by
  rcases subStr_iff.1 h with ⟨i, hi⟩
  exact subStr_iff.2 ⟨u.length + i, by rwa [List.drop_append]⟩

theorem subStr_append_left {p u : List Char} (v : List Char)
    (h : subStr p u = true) : subStr p (u ++ v) = true := by
  rcases subStr_iff.1 h with ⟨i, hi⟩
  refine subStr_iff.2 ⟨i, ?_⟩
  rcases Nat.le_total i u.length with hle | hle
  · rw [List.drop_append_of_le_length hle,
      matchPre_append_left _ (le_trans (matchPre_length hi) (by simp))]
    exact hi
  · rw [List.drop_eq_nil_of_le hle] at hi
    have := matchPre_length hi
    simp only [List.length_nil, Nat.le_zero] at this
    cases p with
    | nil => simp [matchPre]
    | cons a ps => simp at this

theorem subStr_of_self_mid (u v p : List Char) :
    subStr p (u ++ (p ++ v)) = true :=
  subStr_append_right u (subStr_iff.2 ⟨0, by simpa using matchPre_of_eqv_refl chEq_refl p v⟩)

/-! ### The leftmost scan `searchGen` -/

theorem searchGen_eq_none_iff {f : List Char → Option Nat} (hnil : f [] = none)
    (l : List Char) :
    searchGen f l = none ↔ ∀ i, f (l.drop i) = none := by
  induction l with
  | nil =>
    simp only [searchGen, true_iff]
    intro i; simpa using hnil
  | cons c cs ih =>
    simp only [searchGen]
    cases hf : f (c :: cs) with
    | some n =>
      simp only [false_iff, not_forall]
      constructor
      · intro h; cases h
      · intro h; exact absurd (h 0) (by simp [hf])
    | none =>
      simp only [Option.map_eq_none', ih]
      constructor
      · intro h i
        cases i with
        | zero => simpa using hf
        | succ k => simpa using h k
      · intro h i
        simpa using h (i + 1)

theorem searchGen_eq_some_iff {f : List Char → Option Nat} (hnil : f [] = none)
    (l : List Char) (v : Nat) :
    searchGen f l = some v ↔
      ∃ i n, i + n = v ∧ f (l.drop i) = some n ∧ ∀ j, j < i → f (l.drop j) = none := by
  induction l generalizing v with
  | nil =>
    simp only [searchGen, false_iff, not_exists]
    constructor
    · intro h; cases h
    · rintro ⟨i, n, _, hf, _⟩
      rw [List.drop_nil] at hf
      rw [hnil] at hf
      cases hf
  | cons c cs ih =>
    simp only [searchGen]
    cases hf : f (c :: cs) with
    | some n =>
      constructor
      · intro h
        refine ⟨0, v, by omega, by simpa using (hf.trans (by injection h; simp [*])), ?_⟩
        intro j hj; omega
      · rintro ⟨i, m, hiv, hfi, hnone⟩
        cases i with
        | zero =>
          simp only [List.drop_zero] at hfi
          rw [hf] at hfi
          injection hfi with hmn
          simp [← hiv, hmn]
        | succ k =>
          have := hnone 0 (by omega)
          simp only [List.drop_zero] at this
          rw [hf] at this
          cases this
    | none =>
      constructor
      · intro h
        rcases Option.map_eq_some'.1 h with ⟨w, hw, hwv⟩
        rcases (ih w).1 hw with ⟨i, n, hin, hfi, hnone⟩
        refine ⟨i + 1, n, by omega, by simpa using hfi, ?_⟩
        intro j hj
        cases j with
        | zero => simpa using hf
        | succ k => simpa using hnone k (by omega)
      · rintro ⟨i, n, hin, hfi, hnone⟩
        cases i with
        | zero =>
          simp only [List.drop_zero] at hfi
          rw [hf] at hfi; cases hfi
        | succ k =>
          have hw : searchGen f cs = some (k + n) := by
            refine (ih (k + n)).2 ⟨k, n, rfl, by simpa using hfi, ?_⟩
            intro j hj
            simpa using hnone (j + 1) (by omega)
          rw [hw]
          simp only [Option.map_some']
          congr 1
          omega

/-! ### Occurrences in a spliced string -/

theorem noLeftStraddle_spec {eqv : Char → Char → Bool} {p x : List Char}
    (h : noLeftStraddle eqv p x = true) {m : Nat} (h0 : 0 < m) (hm : m < p.length) :
    matchPre eqv ((p.drop m).take x.length) x = false := by
  have := List.all_eq_true.1 h m (List.mem_range.2 hm)
  simp only [Bool.or_eq_true, beq_iff_eq, Bool.not_eq_true'] at this
  rcases this with h1 | h1
  · omega
  · exact h1

theorem noRightOcc_spec {eqv : Char → Char → Bool} {p x : List Char}
    (h : noRightOcc eqv p x = true) {d : Nat} (hd : d < x.length) :
    matchPre eqv (p.take (x.length - d)) (x.drop d) = false := by
  have := List.all_eq_true.1 h d (List.mem_range.2 hd)
  simpa only [Bool.not_eq_true'] using this

theorem noRightStraddle_spec {eqv : Char → Char → Bool} {p x : List Char}
    (h : noRightStraddle eqv p x = true) {d : Nat} (hd : d < x.length)
    (hlen : x.length < p.length + d) :
    matchPre eqv (p.take (x.length - d)) (x.drop d) = false := by
  have := List.all_eq_true.1 h d (List.mem_range.2 hd)
  simp only [Bool.or_eq_true, decide_eq_true_eq, Bool.not_eq_true'] at this
  rcases this with h1 | h1
  · omega
  · exact h1

theorem occ_in_splice {eqv : Char → Char → Bool} {p a x b : List Char} {i : Nat}
    (h : matchPre eqv p ((a ++ x ++ b).drop i) = true)
    (hp : 0 < p.length)
    (hL : noLeftStraddle eqv p x = true)
    (hR : noRightOcc eqv p x = true) :
    (i + p.length ≤ a.length ∧ matchPre eqv p ((a ++ b).drop i) = true) ∨
    (a.length + x.length ≤ i ∧ matchPre eqv p ((a ++ b).drop (i - x.length)) = true) := by
  rw [List.append_assoc] at h
  by_cases h1 : i + p.length ≤ a.length
  · left
    refine ⟨h1, ?_⟩
    rw [List.drop_append_of_le_length (by omega)] at h
    rw [matchPre_append_left _ (by simp [List.length_drop]; omega)] at h
    rw [List.drop_append_of_le_length (by omega),
      matchPre_append_left _ (by simp [List.length_drop]; omega)]
    exact h
  · by_cases h2 : i < a.length
    · exfalso
      rw [List.drop_append_of_le_length (by omega)] at h
      have hm := matchPre_split h (by simp [List.length_drop]; omega)
      have htake := matchPre_take_append hm
      have hlen : (a.drop i).length = a.length - i := by simp [List.length_drop]
      rw [hlen] at htake
      have := noLeftStraddle_spec hL (m := a.length - i) (by omega) (by omega)
      rw [this] at htake
      cases htake
    · by_cases h3 : i < a.length + x.length
      · exfalso
        have hi : i = a.length + (i - a.length) := by omega
        rw [hi, List.drop_append] at h
        have hd : i - a.length < x.length := by omega
        rw [List.drop_append_of_le_length (by omega)] at h
        have htake := matchPre_take_append h
        have hlen : (x.drop (i - a.length)).length = x.length - (i - a.length) := by
          simp [List.length_drop]
        rw [hlen] at htake
        have := noRightOcc_spec hR hd
        rw [this] at htake
        cases htake
      · right
        refine ⟨by omega, ?_⟩
        rw [drop_append_ge (by omega), drop_append_ge (by omega)] at h
        rw [drop_append_ge (by omega)]
        have : i - x.length - a.length = i - a.length - x.length := by omega
        rw [this]
        exact h

/-! ### Occurrence counting -/

theorem countOcc_nil {p : List Char} (hp : 0 < p.length) : countOcc p [] = 0 := by
  simp [countOcc, matchPre_pos_nil hp]

theorem countOcc_append {p u v : List Char} (hp : 0 < p.length)
    (hstrad : ∀ i, i < u.length → u.length < i + p.length →
      matchPre chEq p ((u ++ v).drop i) = false) :
    countOcc p (u ++ v) = countOcc p u + countOcc p v := by
  induction u with
  | nil => simp [countOcc_nil hp]
  | cons c cs ih =>
    simp only [List.cons_append, countOcc, List.append_eq]
    have htail : countOcc p (cs ++ v) = countOcc p cs + countOcc p v := by
      refine ih ?_
      intro i hi hlen
      have := hstrad (i + 1) (by simp only [List.length_cons]; omega)
        (by simp only [List.length_cons]; omega)
      simpa using this
    rw [htail]
    by_cases hc : p.length ≤ cs.length + 1
    · have heq : matchPre chEq p (c :: (cs ++ v)) = matchPre chEq p (c :: cs) :=
        matchPre_append_left (u := c :: cs) v (by simpa using hc)
      simp only [heq]
      exact (Nat.add_assoc _ _ _).symm
    · have h0 := hstrad 0 (by simp only [List.length_cons]; omega)
        (by simp only [List.length_cons]; omega)
      simp only [List.drop_zero, List.cons_append] at h0
      have h1 : matchPre chEq p (c :: cs) = false :=
        matchPre_eq_false_of_lt (by simp only [List.length_cons]; omega)
      simp [h0, h1, Nat.add_assoc]

theorem countOcc_eq_zero_of_not_subStr {p l : List Char}
    (h : subStr p l = false) : countOcc p l = 0 := by
  induction l with
  | nil =>
    simp only [subStr] at h
    simp [countOcc, h]
  | cons c cs ih =>
    simp only [subStr, Bool.or_eq_false_iff] at h
    simp [countOcc, h.1, ih h.2]

theorem subStr_eq_true_of_countOcc {p l : List Char}
    (h : countOcc p l ≠ 0) : subStr p l = true := by
  cases hs : subStr p l with
  | false => exact absurd (countOcc_eq_zero_of_not_subStr hs) h
  | true => rfl

/-! ### Whitespace runs -/

theorem takeWhile_eq_self_of_all {q : Char → Bool} {u : List Char}
    (h : u.all q = true) : u.takeWhile q = u := by
  induction u with
  | nil => rfl
  | cons c cs ih =>
    simp only [List.all_cons, Bool.and_eq_true] at h
    simp [List.takeWhile_cons, h.1, ih h.2]

theorem wsLen_cons_of_space {c : Char} {cs : List Char} (h : isPySpace c = true) :
    wsLen (c :: cs) = wsLen cs + 1 := by
  simp [wsLen, List.takeWhile_cons, h]

theorem wsLen_cons_of_not_space {c : Char} {cs : List Char} (h : isPySpace c = false) :
    wsLen (c :: cs) = 0 := by
  simp [wsLen, List.takeWhile_cons, h]

theorem wsLen_le (l : List Char) : wsLen l ≤ l.length := by
  induction l with
  | nil => simp [wsLen]
  | cons c cs ih =>
    cases hsp : isPySpace c with
    | false => simp [wsLen_cons_of_not_space hsp]
    | true =>
      rw [wsLen_cons_of_space hsp]
      simp only [List.length_cons]
      omega

theorem wsLen_append_of_all {u v : List Char} (h : u.all isPySpace = true) :
    wsLen (u ++ v) = u.length + wsLen v := by
  simp only [wsLen, List.takeWhile_append, takeWhile_eq_self_of_all h]
  simp

theorem wsLen_append_of_stop {u v : List Char} (h : wsLen u < u.length) :
    wsLen (u ++ v) = wsLen u := by
  simp only [wsLen, List.takeWhile_append]
  rw [if_neg (by simp only [wsLen] at h; omega)]

theorem getElem?_wsLen_stop {l : List Char} {ch : Char}
    (h : l[wsLen l]? = some ch) : isPySpace ch = false := by
  induction l with
  | nil => simp at h
  | cons c cs ih =>
    cases hsp : isPySpace c with
    | true =>
      rw [wsLen_cons_of_space hsp] at h
      simp only [List.getElem?_cons_succ] at h
      exact ih h
    | false =>
      rw [wsLen_cons_of_not_space hsp] at h
      simp only [List.getElem?_cons_zero, Option.some_inj] at h
      rw [← h]
      exact hsp

theorem getElem?_lt_wsLen {l : List Char} {j : Nat} (hj : j < wsLen l) :
    ∃ ch, l[j]? = some ch ∧ isPySpace ch = true := by
  induction l generalizing j with
  | nil => simp [wsLen] at hj
  | cons c cs ih =>
    cases hsp : isPySpace c with
    | true =>
      rw [wsLen_cons_of_space hsp] at hj
      cases j with
      | zero => exact ⟨c, by simp, hsp⟩
      | succ k =>
        rcases ih (j := k) (by omega) with ⟨ch, h1, h2⟩
        exact ⟨ch, by simpa using h1, h2⟩
    | false =>
      rw [wsLen_cons_of_not_space hsp] at hj
      omega

theorem not_all_of_wsLen_lt {l : List Char} (h : l.all isPySpace = true) :
    wsLen l = l.length := by
  simp [wsLen, takeWhile_eq_self_of_all h]

/-! ### The fixer's substitution -/

theorem subStr_self_append (p z : List Char) : subStr p (p ++ z) = true :=
  subStr_iff.2 ⟨0, by simpa using matchPre_of_eqv_refl chEq_refl p z⟩

theorem subAllF_nil (f : Nat) : subAllF f [] = [] := by cases f <;> rfl

theorem subAllF_cons_match {f : Nat} {l : List Char} {n : Nat} (hne : l ≠ [])
    (ht : tryMal l = some n) :
    subAllF (f + 1) l = replChunk ++ subAllF f (l.drop n) := by
  cases l with
  | nil => cases hne rfl
  | cons c cs => simp [subAllF, ht]

theorem subAllF_cons_none {f : Nat} {c : Char} {cs : List Char}
    (ht : tryMal (c :: cs) = none) :
    subAllF (f + 1) (c :: cs) = c :: subAllF f cs := by
  simp [subAllF, ht]

theorem tryMal_of_malLF (t : List Char) : tryMal (malLF ++ t) = some 31 := rfl

theorem tryMal_of_malCRLF (t : List Char) : tryMal (malCRLF ++ t) = some 32 := rfl

theorem tryMal_of_replChunk (t : List Char) : tryMal (replChunk ++ t) = some 35 := rfl

theorem tryMal_some_bounds {l : List Char} {n : Nat} (h : tryMal l = some n) :
    30 ≤ n ∧ n ≤ l.length := by
  by_cases h1 : matchPre chEq divClose l = true
  · simp only [tryMal, h1, if_true] at h
    split at h
    · rename_i hcond
      simp only [Option.some_inj] at h
      simp only [Bool.and_eq_true] at hcond
      have hlen1 : divClose.length ≤ l.length := matchPre_length h1
      have hlen2 := wsLen_le (l.drop divClose.length)
      have hlen3 := matchPre_length hcond.2
      simp only [List.length_drop] at hlen2 hlen3
      have hd : divClose.length = 23 := by decide
      have hs : scriptOpenLit.length = 7 := by decide
      omega
    · cases h
  · simp only [tryMal, h1] at h
    simp at h

theorem subAllF_congr : ∀ (k : Nat) (l : List Char) (f₁ f₂ : Nat), l.length ≤ k →
    l.length ≤ f₁ → l.length ≤ f₂ → subAllF f₁ l = subAllF f₂ l := by
  intro k
  induction k with
  | zero =>
    intro l f₁ f₂ hk _ _
    have : l = [] := List.eq_nil_of_length_eq_zero (by omega)
    subst this
    rw [subAllF_nil, subAllF_nil]
  | succ k ih =>
    intro l f₁ f₂ hk h1 h2
    cases l with
    | nil => rw [subAllF_nil, subAllF_nil]
    | cons c cs =>
      simp only [List.length_cons] at hk h1 h2
      cases f₁ with
      | zero => omega
      | succ g1 =>
        cases f₂ with
        | zero => omega
        | succ g2 =>
          cases ht : tryMal (c :: cs) with
          | some n =>
            have hb := tryMal_some_bounds ht
            simp only [List.length_cons] at hb
            rw [subAllF_cons_match (by simp) ht, subAllF_cons_match (by simp) ht]
            congr 1
            apply ih
            · simp only [List.length_drop, List.length_cons]; omega
            · simp only [List.length_drop, List.length_cons]; omega
            · simp only [List.length_drop, List.length_cons]; omega
          | none =>
            rw [subAllF_cons_none ht, subAllF_cons_none ht]
            congr 1
            apply ih <;> omega

theorem subAllF_eq {f : Nat} {l : List Char} (h : l.length ≤ f) :
    subAllF f l = subAll l :=
  subAllF_congr f l f l.length h h le_rfl

theorem append_drop_self (u v : List Char) : (u ++ v).drop u.length = v :=
  List.drop_left u v

theorem subAllF_contains_repl : ∀ (f : Nat) (l : List Char), l.length ≤ f →
    subStr malLF l = true → subStr replChunk (subAllF f l) = true := by
  intro f
  induction f with
  | zero =>
    intro l hlen h
    have : l = [] := List.eq_nil_of_length_eq_zero (by omega)
    subst this
    simp [subStr, matchPre_pos_nil (p := malLF) (by decide)] at h
  | succ f ih =>
    intro l hlen h
    cases l with
    | nil => simp [subStr, matchPre_pos_nil (p := malLF) (by decide)] at h
    | cons c cs =>
      cases ht : tryMal (c :: cs) with
      | some n =>
        rw [subAllF_cons_match (by simp) ht]
        exact subStr_self_append replChunk _
      | none =>
        rw [subAllF_cons_none ht]
        simp only [subStr, Bool.or_eq_true] at h
        rcases h with h | h
        · exfalso
          have hsplit : c :: cs = malLF ++ (c :: cs).drop malLF.length := by
            conv_lhs => rw [← List.take_append_drop malLF.length (c :: cs)]
            rw [matchPre_chEq_eq h]
          rw [hsplit, tryMal_of_malLF] at ht
          cases ht
        · have hre := ih cs (by simp only [List.length_cons] at hlen; omega) h
          exact subStr_append_right [c] hre

theorem subAll_contains_repl {l : List Char} (h : subStr malLF l = true) :
    subStr replChunk (subAll l) = true :=
  subAllF_contains_repl l.length l le_rfl h

theorem tryMal_match {w t : List Char} (hw : w.all isPySpace = true)
    (hnl : w.contains '\n' = true) :
    tryMal (divClose ++ w ++ (scriptOpenLit ++ t)) =
      some (divClose.length + w.length + scriptOpenLit.length) := by
  have hshape : divClose ++ w ++ (scriptOpenLit ++ t) =
      divClose ++ (w ++ (scriptOpenLit ++ t)) := by
    rw [List.append_assoc]
  have hm : matchPre chEq divClose (divClose ++ (w ++ (scriptOpenLit ++ t))) = true :=
    matchPre_of_eqv_refl chEq_refl _ _
  have hdrop : (divClose ++ (w ++ (scriptOpenLit ++ t))).drop divClose.length =
      w ++ (scriptOpenLit ++ t) := append_drop_self _ _
  have hws : wsLen (w ++ (scriptOpenLit ++ t)) = w.length := by
    rw [wsLen_append_of_all hw]
    have : scriptOpenLit ++ t = '<' :: ("script".toList ++ t) := rfl
    rw [this, wsLen_cons_of_not_space (by decide)]
    omega
  have htake : (w ++ (scriptOpenLit ++ t)).take w.length = w := List.take_left _ _
  have hdrop2 : (w ++ (scriptOpenLit ++ t)).drop w.length = scriptOpenLit ++ t :=
    append_drop_self _ _
  rw [hshape]
  simp only [tryMal, hm, if_true, hdrop, hws, htake, hdrop2, hnl,
    matchPre_of_eqv_refl chEq_refl scriptOpenLit t, Bool.and_self, if_true]

/-! ### Claims about `arreglar_formato.py` -/

/-- C7: for a file containing the exact adjacency `themeResources\x7d"></div>`
followed by a newline and `<script` with no indentation, the fixer rewrites
the content (returning `True`) so that it contains the closing div followed
by a newline, four spaces and `<script`; for a file containing neither the
Unix nor the Windows form of the exact adjacency, it reports "OK" and the
content is byte-for-byte unchanged. -/
theorem c7_fixer_exact_adjacency (c : List Char) :
    (subStr malLF c = true →
      fix_theme_resources_format c = (subAll c, true) ∧
      subStr replChunk (subAll c) = true) ∧
    (subStr malLF c = false → subStr malCRLF c = false →
      fix_theme_resources_format c = (c, false)) := by
  constructor
  · intro h
    exact ⟨by simp [fix_theme_resources_format, h], subAll_contains_repl h⟩
  · intro h1 h2
    simp [fix_theme_resources_format, h1, h2]

/-- Witness for C7 at concrete inputs: a file with the malformed Unix
adjacency is rewritten and then contains the normalized form; a file
without either adjacency is returned unchanged with `False`. -/
theorem c7_witness :
    (subStr malLF "a themeResources\x7d\"></div>\n<script b".toList = true ∧
      fix_theme_resources_format "a themeResources\x7d\"></div>\n<script b".toList =
        (subAll "a themeResources\x7d\"></div>\n<script b".toList, true) ∧
      subStr replChunk (subAll "a themeResources\x7d\"></div>\n<script b".toList) = true) ∧
    (fix_theme_resources_format "hello".toList = ("hello".toList, false)) :=
  ⟨⟨by decide, ((c7_fixer_exact_adjacency _).1 (by decide)).1,
      ((c7_fixer_exact_adjacency _).1 (by decide)).2⟩,
    (c7_fixer_exact_adjacency _).2 (by decide) (by decide)⟩

/-- C9 counterexample: on the file content
`themeResources\x7d"></div>\n<scripthemeResources\x7d"></div>\n<script`
(two overlapping malformed occurrences) the first application's output
still contains the malformed adjacency, so the second application does not
take the "OK" branch and returns `True`, contradicting the claim that one
application always removes the adjacency and the second returns `False`. -/
theorem c9_counterexample :
    subStr malLF
      "themeResources\x7d\"></div>\n<scripthemeResources\x7d\"></div>\n<script".toList = true ∧
    subStr malLF
      (subAll "themeResources\x7d\"></div>\n<scripthemeResources\x7d\"></div>\n<script".toList) = true ∧
    (fix_theme_resources_format
      (subAll "themeResources\x7d\"></div>\n<scripthemeResources\x7d\"></div>\n<script".toList)).2
      = true :=
  ⟨by decide, by decide, by decide⟩

/-- C9 amended: after one application of the fixer to a file with the
malformed Unix adjacency, the malformed adjacency may still be present
(overlapping occurrences); the second application takes the "OK" branch,
returns `False` and changes nothing exactly when the first application's
output no longer contains either malformed adjacency, and otherwise it
takes the fixing branch and returns `True`. -/
theorem c9_amended_second_application (c : List Char) (h : subStr malLF c = true) :
    fix_theme_resources_format c = (subAll c, true) ∧
    (subStr malLF (subAll c) = false → subStr malCRLF (subAll c) = false →
      fix_theme_resources_format (subAll c) = (subAll c, false)) ∧
    (subStr malLF (subAll c) = true ∨ subStr malCRLF (subAll c) = true →
      (fix_theme_resources_format (subAll c)).2 = true) := by
  refine ⟨by simp [fix_theme_resources_format, h], ?_, ?_⟩
  · intro h1 h2
    simp [fix_theme_resources_format, h1, h2]
  · intro h12
    rcases h12 with h1 | h1 <;> simp [fix_theme_resources_format, h1]

/-- Witness for the amended C9: on a file with a single malformed
occurrence the first application fixes it and the second application
returns `False` without change. -/
theorem c9_amended_witness :
    fix_theme_resources_format "themeResources\x7d\"></div>\n<script x".toList =
      (subAll "themeResources\x7d\"></div>\n<script x".toList, true) ∧
    fix_theme_resources_format (subAll "themeResources\x7d\"></div>\n<script x".toList) =
      (subAll "themeResources\x7d\"></div>\n<script x".toList, false) :=
  ⟨(c9_amended_second_application _ (by decide)).1,
    (c9_amended_second_application _ (by decide)).2.1 (by decide) (by decide)⟩

/-- C10 counterexample: on the content
`themeResources\x7d"></div>\n<scripthemeResources\x7d"></div>\n        <script`
the guard passes, but the occurrence of the closing div followed by a
newline and eight spaces and `<script` that overlaps the first match is
not rewritten: the output still contains the eight-space form, so not
every such occurrence is normalized to four spaces. -/
theorem c10_counterexample :
    subStr malLF
      "themeResources\x7d\"></div>\n<scripthemeResources\x7d\"></div>\n        <script".toList
      = true ∧
    fix_theme_resources_format
      "themeResources\x7d\"></div>\n<scripthemeResources\x7d\"></div>\n        <script".toList
      = (subAll
          "themeResources\x7d\"></div>\n<scripthemeResources\x7d\"></div>\n        <script".toList,
        true) ∧
    subStr (divClose ++ "\n        ".toList ++ scriptOpenLit)
      (subAll
        "themeResources\x7d\"></div>\n<scripthemeResources\x7d\"></div>\n        <script".toList)
      = true :=
  ⟨by decide, by decide, by decide⟩

/-- C10 amended: a match of the substitution pattern at the scan position —
the closing div followed by any whitespace run containing a newline
(for example eight spaces of indentation) and then `<script` — is rewritten
to the closing div, a newline and exactly four spaces before `<script`,
and the left-to-right scan continues after the rewritten `<script`, so the
whole file is processed; occurrences overlapping an earlier match are not
rewritten separately. -/
theorem c10_amended_normalization (w rest : List Char) (hw : w.all isPySpace = true)
    (hnl : w.contains '\n' = true) :
    subAll (divClose ++ w ++ (scriptOpenLit ++ rest)) = replChunk ++ subAll rest := by
  have ht := tryMal_match (t := rest) hw hnl
  have hd23 : divClose.length = 23 := by decide
  have hs7 : scriptOpenLit.length = 7 := by decide
  have hlen : (divClose ++ w ++ (scriptOpenLit ++ rest)).length =
      divClose.length + w.length + (scriptOpenLit.length + rest.length) := by
    simp
    omega
  obtain ⟨g, hg⟩ : ∃ g, (divClose ++ w ++ (scriptOpenLit ++ rest)).length = g + 1 :=
    ⟨(divClose ++ w ++ (scriptOpenLit ++ rest)).length - 1, by omega⟩
  have hne : divClose ++ w ++ (scriptOpenLit ++ rest) ≠ [] := by
    intro h0
    rw [h0] at hlen
    simp at hlen
    omega
  have hdrop : (divClose ++ w ++ (scriptOpenLit ++ rest)).drop
      (divClose.length + w.length + scriptOpenLit.length) = rest := by
    have hsh : divClose ++ w ++ (scriptOpenLit ++ rest) =
        ((divClose ++ w) ++ scriptOpenLit) ++ rest := by
      simp [List.append_assoc]
    have hlen2 : ((divClose ++ w) ++ scriptOpenLit).length =
        divClose.length + w.length + scriptOpenLit.length := by
      simp
      omega
    rw [hsh, ← hlen2, append_drop_self]
  simp only [subAll, hg]
  rw [subAllF_cons_match hne ht, hdrop, subAllF_eq (by omega)]
  rfl

/-- Witness for the amended C10: an occurrence separated by a newline and
eight spaces is rewritten to a newline and four spaces, and scanning
continues on the remainder. -/
theorem c10_amended_witness :
    subAll (divClose ++ "\n        ".toList ++ (scriptOpenLit ++ " x".toList)) =
      replChunk ++ subAll " x".toList :=
  c10_amended_normalization _ _ (by decide) (by decide)

/-! ### Claims about the injector's per-file steps -/

/-- C6: a file whose content already contains the theme-resource marker is
returned by `update_html_file` unchanged, with the early
"skipped, already present" report, before any insertion is attempted. -/
theorem c6_marker_file_never_modified (c : List Char)
    (h : subStr resourcesPat c = true) :
    update_html_file c = (c, UpdateStatus.skippedAlready) := by
  simp [update_html_file, h]

/-- Witness for C6 at a concrete file content. -/
theorem c6_witness :
    subStr resourcesPat "x fragments/theme :: themeResources y".toList = true ∧
    update_html_file "x fragments/theme :: themeResources y".toList =
      ("x fragments/theme :: themeResources y".toList, UpdateStatus.skippedAlready) :=
  ⟨by decide, c6_marker_file_never_modified _ (by decide)⟩

/-- C8: a file whose content lacks the case-sensitive
`cdn.tailwindcss.com` pattern is excluded from the candidate list of
`find_html_files_with_tailwind` and is left unchanged by `main`'s
per-file processing. -/
theorem c8_no_cdn_never_touched (tree : List FileEntry) (f : FileEntry)
    (h : subStr tailwindPat f.content = false) :
    f ∉ find_html_files_with_tailwind tree ∧ mainPerFile f = f := by
  constructor
  · intro hmem
    have hc := (List.mem_filter.1 hmem).2
    simp [isCandidate, h] at hc
  · simp [mainPerFile, isCandidate, h]

/-- Witness for C8 at a concrete one-file tree. -/
theorem c8_witness :
    subStr tailwindPat (FileEntry.mk "a.html".toList "hello".toList).content = false ∧
    FileEntry.mk "a.html".toList "hello".toList ∉
      find_html_files_with_tailwind [FileEntry.mk "a.html".toList "hello".toList] ∧
    mainPerFile (FileEntry.mk "a.html".toList "hello".toList) =
      FileEntry.mk "a.html".toList "hello".toList :=
  ⟨by decide,
    (c8_no_cdn_never_touched [FileEntry.mk "a.html".toList "hello".toList]
      (FileEntry.mk "a.html".toList "hello".toList) (by decide)).1,
    (c8_no_cdn_never_touched [FileEntry.mk "a.html".toList "hello".toList]
      (FileEntry.mk "a.html".toList "hello".toList) (by decide)).2⟩

/-- C4: when the Material-icons head-anchor regex matches a file's
content, the head step splices `'\n' + THEME_RESOURCES + '\n'` exactly at
the match end; when the regex does not match, the head step leaves the
content unchanged and reports no insertion (no error). -/
theorem c4_head_insertion (c : List Char) :
    (∀ p, materialSearchEnd c = some p →
      applyHead c = (c.take p ++ headIns ++ c.drop p, true)) ∧
    (materialSearchEnd c = none → applyHead c = (c, false)) := by
  constructor
  · intro p hp
    simp [applyHead, hp]
  · intro hp
    simp [applyHead, hp]

/-- Witness for C4: a concrete file where the head anchor matches (with
the match end after the trailing whitespace) and one where it does not. -/
theorem c4_witness :
    materialSearchEnd "xx Material+Symbols+Outlined abc rel=\"stylesheet\" />  tail".toList
      = some 54 ∧
    applyHead "xx Material+Symbols+Outlined abc rel=\"stylesheet\" />  tail".toList =
      ("xx Material+Symbols+Outlined abc rel=\"stylesheet\" />  tail".toList.take 54 ++
        headIns ++
        "xx Material+Symbols+Outlined abc rel=\"stylesheet\" />  tail".toList.drop 54, true) ∧
    materialSearchEnd "plain".toList = none ∧
    applyHead "plain".toList = ("plain".toList, false) :=
  ⟨by decide,
    (c4_head_insertion _).1 54 (by decide),
    by decide,
    (c4_head_insertion _).2 (by decide)⟩

/-- C3 counterexample: on the content
`</script></body></script></body>` — which has two script/body
adjacencies, the second one matching at offset 16 with its `</body>` at
offset 25 — the body step inserts before the FIRST `</body>` (offset 9),
not before the last one as the claim states, and the two results differ. -/
theorem c3_counterexample :
    subStr scriptPat "</script></body></script></body>".toList = false ∧
    scriptBodyMatchAt ("</script></body></script></body>".toList.drop 16) = some 9 ∧
    applyScript "</script></body></script></body>".toList =
      ("</script></body></script></body>".toList.take 9 ++ scriptIns ++
        "</script></body></script></body>".toList.drop 9, true) ∧
    "</script></body></script></body>".toList.take 9 ++ scriptIns ++
        "</script></body></script></body>".toList.drop 9 ≠
      "</script></body></script></body>".toList.take 25 ++ scriptIns ++
        "</script></body></script></body>".toList.drop 25 :=
  ⟨by decide, by decide, by decide, by decide⟩

/-- C3 amended: when the theme-script marker is not present, the body step
finds the FIRST (leftmost) position where `</script>` is followed, across
whitespace and case-insensitively, by `</body>`, and inserts
`THEME_SCRIPT + '\n  '` immediately before that `</body>`; if no such
adjacency exists the step is skipped silently. -/
theorem c3_amended_body_insertion (c : List Char) (h : subStr scriptPat c = false) :
    (scriptBodySearch c = none → applyScript c = (c, false)) ∧
    (∀ q, scriptBodySearch c = some q →
      applyScript c = (c.take q ++ scriptIns ++ c.drop q, true) ∧
      ∃ i, scriptBodyMatchAt (c.drop i) = some (q - i) ∧ i ≤ q ∧
        ∀ j, j < i → scriptBodyMatchAt (c.drop j) = none) := by
  constructor
  · intro hn
    simp [applyScript, h, hn]
  · intro q hq
    constructor
    · simp [applyScript, h, hq]
    · rcases (searchGen_eq_some_iff (by decide) c q).1 hq with ⟨i, n, hin, hfi, hnone⟩
      refine ⟨i, ?_, by omega, hnone⟩
      rw [hfi]
      congr 1
      omega

/-- Witness for the amended C3 at concrete inputs: a file with one
adjacency (possible earlier positions all fail) and a file with none. -/
theorem c3_amended_witness :
    (applyScript "x</script> </body>y".toList =
      ("x</script> </body>y".toList.take 11 ++ scriptIns ++
        "x</script> </body>y".toList.drop 11, true) ∧
      ∃ i, scriptBodyMatchAt ("x</script> </body>y".toList.drop i) = some (11 - i) ∧
        i ≤ 11 ∧
        ∀ j, j < i → scriptBodyMatchAt ("x</script> </body>y".toList.drop j) = none) ∧
    applyScript "nobody".toList = ("nobody".toList, false) :=
  ⟨(c3_amended_body_insertion _ (by decide)).2 11 (by decide),
    (c3_amended_body_insertion _ (by decide)).1 (by decide)⟩

/-! ### Preservation of the injector's searches across a splice

These lemmas show that inserting the script chunk cannot create a match
of the Material-icons regex, which drives the idempotence analysis. -/

theorem all_of_wsLen_eq_length {l : List Char} (h : wsLen l = l.length) :
    l.all isPySpace = true := by
  induction l with
  | nil => rfl
  | cons c cs ih =>
    cases hsp : isPySpace c with
    | false =>
      rw [wsLen_cons_of_not_space hsp] at h
      simp at h
    | true =>
      rw [wsLen_cons_of_space hsp] at h
      simp only [List.length_cons] at h
      simp [List.all_cons, hsp, ih (by omega)]

theorem tailSearchEnd_eq_none_iff {l : List Char} :
    tailSearchEnd l = none ↔ ∀ i, tailMatchAt (l.drop i) = none :=
  searchGen_eq_none_iff (by decide) l

theorem materialSearchEnd_eq_none_iff {l : List Char} :
    materialSearchEnd l = none ↔ ∀ i, materialMatchAt (l.drop i) = none :=
  searchGen_eq_none_iff (by decide) l

theorem tailMatchAt_none_of_pre_false {l : List Char}
    (h : matchPre chEq relStylesheet l = false) : tailMatchAt l = none := by
  simp [tailMatchAt, h]

theorem materialMatchAt_none_of_pre_false {l : List Char}
    (h : matchPre chEq materialLit l = false) : materialMatchAt l = none := by
  simp [materialMatchAt, h]

theorem materialMatchAt_none_of_tail_none {l : List Char}
    (h : tailSearchEnd (l.drop materialLit.length) = none) :
    materialMatchAt l = none := by
  simp [materialMatchAt, h]

theorem tail_none_of_materialMatchAt_none {l : List Char}
    (h : materialMatchAt l = none) (hp : matchPre chEq materialLit l = true) :
    tailSearchEnd (l.drop materialLit.length) = none := by
  simpa [materialMatchAt, hp, Option.map_eq_none'] using h

theorem tailMatchAt_of_pre {l : List Char}
    (h : matchPre chEq relStylesheet l = true) :
    tailMatchAt l =
      match (l.drop relStylesheet.length).drop (wsLen (l.drop relStylesheet.length)) with
      | '/' :: '>' :: rest =>
        some (relStylesheet.length + wsLen (l.drop relStylesheet.length) + 2 + wsLen rest)
      | '>' :: rest =>
        some (relStylesheet.length + wsLen (l.drop relStylesheet.length) + 1 + wsLen rest)
      | _ => none := by
  simp [tailMatchAt, h]

theorem tailSearchEnd_splice_none {a b : List Char}
    (h : tailSearchEnd (a ++ b) = none) :
    tailSearchEnd (a ++ scriptIns ++ b) = none := by
  rw [tailSearchEnd_eq_none_iff] at h ⊢
  intro k
  cases hrel : matchPre chEq relStylesheet ((a ++ scriptIns ++ b).drop k) with
  | false => exact tailMatchAt_none_of_pre_false hrel
  | true =>
    have h16 : relStylesheet.length = 16 := by decide
    rcases occ_in_splice hrel (by decide) (by decide) (by decide) with
      ⟨hk, hpre_p⟩ | ⟨hk, hpre_p⟩
    · -- the literal sits inside `a`
      have ha : (a ++ scriptIns ++ b).drop k = a.drop k ++ (scriptIns ++ b) := by
        rw [List.append_assoc, List.drop_append_of_le_length (by omega)]
      have hb : (a ++ b).drop k = a.drop k ++ b :=
        List.drop_append_of_le_length (by omega)
      have hpk := h k
      rw [hb] at hpk hpre_p
      rw [ha] at hrel ⊢
      have hul : relStylesheet.length ≤ (a.drop k).length := by
        simp only [List.length_drop]
        omega
      have hds : (a.drop k ++ (scriptIns ++ b)).drop relStylesheet.length =
          (a.drop k).drop relStylesheet.length ++ (scriptIns ++ b) :=
        List.drop_append_of_le_length hul
      have hdp : (a.drop k ++ b).drop relStylesheet.length =
          (a.drop k).drop relStylesheet.length ++ b :=
        List.drop_append_of_le_length hul
      rw [tailMatchAt_of_pre hrel, hds]
      rw [tailMatchAt_of_pre hpre_p, hdp] at hpk
      set s := (a.drop k).drop relStylesheet.length with hs
      rcases (wsLen_le s).lt_or_eq with hlt | heq
      · -- the whitespace run stops inside `s`
        have hws_s : wsLen (s ++ (scriptIns ++ b)) = wsLen s := wsLen_append_of_stop hlt
        have hws_p : wsLen (s ++ b) = wsLen s := wsLen_append_of_stop hlt
        obtain ⟨d, s2, hds2⟩ : ∃ d s2, s.drop (wsLen s) = d :: s2 := by
          cases hns : s.drop (wsLen s) with
          | nil =>
            exfalso
            have := congrArg List.length hns
            simp only [List.length_drop, List.length_nil] at this
            omega
          | cons d s2 => exact ⟨d, s2, rfl⟩
        have hdropS : (s ++ (scriptIns ++ b)).drop (wsLen (s ++ (scriptIns ++ b))) =
            d :: (s2 ++ (scriptIns ++ b)) := by
          rw [hws_s, List.drop_append_of_le_length (le_of_lt hlt), hds2]
          rfl
        have hdropP : (s ++ b).drop (wsLen (s ++ b)) = d :: (s2 ++ b) := by
          rw [hws_p, List.drop_append_of_le_length (le_of_lt hlt), hds2]
          rfl
        rw [hdropS]
        rw [hdropP] at hpk
        split
        · rename_i rest hmatch
          exfalso
          cases s2 with
          | nil =>
            simp only [List.nil_append, List.cons.injEq] at hmatch
            obtain ⟨h1, h2⟩ := hmatch
            have hsi : scriptIns = '\n' :: ("    <!-- Script del Sistema de Temas -->\n    <div th:replace=\"~\x7bfragments/theme :: themeScript\x7d\"></div>\n  ".toList) := by decide
            rw [hsi, List.cons_append] at h2
            simp only [List.cons.injEq] at h2
            exact absurd h2.1 (by decide)
          | cons e s3 =>
            simp only [List.cons_append, List.cons.injEq] at hmatch
            obtain ⟨h1, he, _⟩ := hmatch
            subst h1
            subst he
            exact Option.noConfusion hpk
        · rename_i rest hmatch
          exfalso
          simp only [List.cons.injEq] at hmatch
          obtain ⟨hd, _⟩ := hmatch
          subst hd
          exact Option.noConfusion hpk
        · rfl
      · -- `s` is all whitespace: the run continues into the inserted chunk,
        -- which stops it at `<`, so no terminator can follow
        have hall : s.all isPySpace = true := all_of_wsLen_eq_length heq
        have hx5 : wsLen scriptIns < scriptIns.length := by decide
        have hWs : wsLen (s ++ (scriptIns ++ b)) = s.length + wsLen scriptIns := by
          rw [wsLen_append_of_all hall, wsLen_append_of_stop hx5]
        have hdropS : (s ++ (scriptIns ++ b)).drop (wsLen (s ++ (scriptIns ++ b))) =
            scriptIns.drop (wsLen scriptIns) ++ b := by
          rw [hWs, ← List.drop_drop, append_drop_self,
            List.drop_append_of_le_length (le_of_lt hx5)]
        obtain ⟨z, hz⟩ : ∃ z, scriptIns.drop (wsLen scriptIns) = '<' :: z := ⟨_, rfl⟩
        rw [hdropS, hz]
        rfl
    · -- the literal sits inside `b`: the two lists agree from there on
      have he : (a ++ scriptIns ++ b).drop k = (a ++ b).drop (k - scriptIns.length) := by
        rw [List.append_assoc, drop_append_ge (by omega), drop_append_ge (by omega),
          drop_append_ge (by omega)]
        congr 1
        omega
      rw [he]
      exact h _

theorem subStr_splice_false {p x a b : List Char} (hp : 0 < p.length)
    (hL : noLeftStraddle chEq p x = true) (hR : noRightOcc chEq p x = true)
    (h : subStr p (a ++ b) = false) : subStr p (a ++ x ++ b) = false := by
  cases hs : subStr p (a ++ x ++ b) with
  | false => rfl
  | true =>
    exfalso
    rcases subStr_iff.1 hs with ⟨i, hi⟩
    rcases occ_in_splice hi hp hL hR with ⟨_, hm⟩ | ⟨_, hm⟩ <;>
      exact absurd (subStr_iff.2 ⟨_, hm⟩) (by simp [h])

theorem materialSearchEnd_splice_none {a b : List Char}
    (h : materialSearchEnd (a ++ b) = none) :
    materialSearchEnd (a ++ scriptIns ++ b) = none := by
  rw [materialSearchEnd_eq_none_iff] at h ⊢
  intro i
  cases hm : matchPre chEq materialLit ((a ++ scriptIns ++ b).drop i) with
  | false => exact materialMatchAt_none_of_pre_false hm
  | true =>
    rcases occ_in_splice hm (by decide) (by decide) (by decide) with
      ⟨hk, hpre_p⟩ | ⟨hk, hpre_p⟩
    · apply materialMatchAt_none_of_tail_none
      have hsp : ((a ++ scriptIns ++ b).drop i).drop materialLit.length =
          a.drop (i + materialLit.length) ++ scriptIns ++ b := by
        rw [List.append_assoc, List.drop_drop,
          List.drop_append_of_le_length (by omega), List.append_assoc]
      have hpp : (a ++ b).drop (i + materialLit.length) =
          a.drop (i + materialLit.length) ++ b :=
        List.drop_append_of_le_length (by omega)
      have htail_p : tailSearchEnd (a.drop (i + materialLit.length) ++ b) = none := by
        have ht := tail_none_of_materialMatchAt_none (h i) hpre_p
        rwa [List.drop_drop, hpp] at ht
      rw [hsp]
      exact tailSearchEnd_splice_none htail_p
    · have he : (a ++ scriptIns ++ b).drop i = (a ++ b).drop (i - scriptIns.length) := by
        rw [List.append_assoc, drop_append_ge (by omega), drop_append_ge (by omega),
          drop_append_ge (by omega)]
        congr 1
        omega
      rw [he]
      exact h _

theorem subStr_scriptPat_splice (a b : List Char) :
    subStr scriptPat (a ++ scriptIns ++ b) = true := by
  rw [List.append_assoc]
  exact subStr_append_right a (subStr_append_left b (by decide))

theorem ciEq_toNat {a b : Char} (h : ciEq a b = true) :
    b = a ∨ (b.toNat = a.toNat + 32 ∧ 65 ≤ a.toNat ∧ a.toNat ≤ 90) ∨
      (b.toNat + 32 = a.toNat ∧ 65 ≤ b.toNat ∧ b.toNat ≤ 90) := by
  rw [ciEq] at h
  simp only [Bool.or_eq_true] at h
  rcases h with (h2 | h2) | h1
  · exact Or.inl (beq_iff_eq.mp h2).symm
  · simp only [Bool.and_eq_true] at h2
    obtain ⟨⟨hA, hB⟩, h4⟩ := h2
    exact Or.inr (Or.inl
      ⟨(beq_iff_eq.mp hA).symm, of_decide_eq_true hB, of_decide_eq_true h4⟩)
  · simp only [Bool.and_eq_true] at h1
    obtain ⟨⟨hA, hB⟩, h4⟩ := h1
    exact Or.inr (Or.inr ⟨beq_iff_eq.mp hA, of_decide_eq_true hB, of_decide_eq_true h4⟩)

theorem ciEq_eq_lt {ch : Char} (h : ciEq '<' ch = true) : ch = '<' := by
  have h60 : ('<' : Char).toNat = 60 := by decide
  rcases ciEq_toNat h with h1 | h1 | h1
  · exact h1
  · exact absurd h1.2.1 (by omega)
  · exact absurd h1.2.1 (by omega)

theorem scriptBodySearch_body_char {l : List Char} {q : Nat}
    (h : scriptBodySearch l = some q) :
    q < l.length ∧ l[q]? = some '<' := by
  rcases (searchGen_eq_some_iff (by decide) l q).1 h with ⟨i, n, hin, hfi, _⟩
  cases hpre : matchPre ciEq scriptCloseLit (l.drop i) with
  | false => rw [scriptBodyMatchAt, if_neg (by simp [hpre])] at hfi; cases hfi
  | true =>
    simp only [scriptBodyMatchAt, hpre, if_true] at hfi
    cases hbody : matchPre ciEq bodyCloseLit
        (((l.drop i).drop scriptCloseLit.length).drop
          (wsLen ((l.drop i).drop scriptCloseLit.length))) with
    | false => rw [if_neg (ne_true_of_eq_false hbody)] at hfi; cases hfi
    | true =>
      rw [if_pos hbody] at hfi
      simp only [Option.some_inj] at hfi
      have hd : ((l.drop i).drop scriptCloseLit.length).drop
          (wsLen ((l.drop i).drop scriptCloseLit.length)) = l.drop q := by
        rw [List.drop_drop, List.drop_drop]
        congr 1
        omega
      rw [hd] at hbody
      cases hcq : l.drop q with
      | nil =>
        rw [hcq] at hbody
        exact absurd hbody (by simp [matchPre_pos_nil (p := bodyCloseLit) (by decide)])
      | cons ch z =>
        rw [hcq] at hbody
        have hci : ciEq '<' ch = true := by
          have hb : bodyCloseLit = '<' :: "/body>".toList := by decide
          rw [hb] at hbody
          simp only [matchPre, Bool.and_eq_true] at hbody
          exact hbody.1
        have hch : ch = '<' := ciEq_eq_lt hci
        subst hch
        have hlen := congrArg List.length hcq
        simp only [List.length_drop, List.length_cons] at hlen
        constructor
        · omega
        · have h0 : (l.drop q)[0]? = some '<' := by
            rw [hcq]
            simp
          rw [List.getElem?_drop] at h0
          simpa using h0

theorem subStr_preserved_insert {p r ins : List Char} {q : Nat}
    (hq : q ≤ r.length) (h : subStr p r = true)
    (hnosplit : ∀ i, matchPre chEq p (r.drop i) = true → q ≤ i ∨ i + p.length ≤ q) :
    subStr p (r.take q ++ ins ++ r.drop q) = true := by
  rcases subStr_iff.1 h with ⟨i, hi⟩
  have hAlen : (r.take q).length = q := by
    simp [List.length_take]
    omega
  rcases hnosplit i hi with hle | hge
  · -- the occurrence lies at or after the cut: shift it right by ins.length
    refine subStr_iff.2 ⟨q + ins.length + (i - q), ?_⟩
    have hdrop : (r.take q ++ ins ++ r.drop q).drop (q + ins.length + (i - q)) =
        r.drop i := by
      rw [List.append_assoc, drop_append_ge (by omega), drop_append_ge (by omega)]
      rw [hAlen]
      have h1 : q + ins.length + (i - q) - q - ins.length = i - q := by omega
      rw [h1, List.drop_drop]
      congr 1
      omega
    rwa [hdrop]
  · -- the occurrence ends at or before the cut: it survives in the prefix
    refine subStr_iff.2 ⟨i, ?_⟩
    have hplen := matchPre_length hi
    simp only [List.length_drop] at hplen
    have hdrop : (r.take q ++ ins ++ r.drop q).drop i =
        (r.take q).drop i ++ (ins ++ r.drop q) := by
      rw [List.append_assoc, List.drop_append_of_le_length (by omega)]
    rw [hdrop, matchPre_append_left _ (by simp [List.length_take]; omega)]
    have htk : (r.take q).drop i = (r.drop i).take (q - i) := List.drop_take q i r
    rw [htk]
    have hsplit : r.drop i = (r.drop i).take (q - i) ++ (r.drop i).drop (q - i) :=
      (List.take_append_drop _ _).symm
    rw [hsplit] at hi
    rwa [matchPre_append_left _ (by simp [List.length_take, List.length_drop]; omega)] at hi

theorem update_eq_skipNoChange_of_marker {d : List Char}
    (h0 : subStr resourcesPat d = false) (hm : materialSearchEnd d = none)
    (hsp : subStr scriptPat d = true) :
    update_html_file d = (d, UpdateStatus.skippedNoChange) := by
  simp [update_html_file, h0, applyHead, hm, applyScript, hsp]

theorem no_cut_of_char_not_mem {p l : List Char} {q i : Nat} {ch : Char}
    (hch : l[q]? = some ch) (hmem : ch ∉ p)
    (hi : matchPre chEq p (l.drop i) = true) (h1 : i < q) (h2 : q < i + p.length) :
    False := by
  rcases matchPre_getElem? hi (q - i) (by omega) with ⟨pc, cc, hpc, hcc, heq⟩
  rw [List.getElem?_drop] at hcc
  have hiq : i + (q - i) = q := by omega
  rw [hiq, hch] at hcc
  have hcc2 : ch = cc := by injection hcc
  have hpcc : pc = cc := by simpa [chEq] using heq
  refine hmem ?_
  have : pc = ch := by rw [hpcc, ← hcc2]
  rw [← this]
  exact List.getElem?_mem hpc

theorem update_head_some_marker {c : List Char} {p : Nat}
    (h0 : subStr resourcesPat c = false) (hm : materialSearchEnd c = some p) :
    subStr resourcesPat (update_html_file c).1 = true := by
  have hr1 : (applyHead c).1 = c.take p ++ headIns ++ c.drop p := by
    simp [applyHead, hm]
  have hrmark : subStr resourcesPat (applyHead c).1 = true := by
    rw [hr1, List.append_assoc]
    exact subStr_append_right _ (subStr_append_left _ (by decide))
  have hfst : (update_html_file c).1 = (applyScript (applyHead c).1).1 := by
    simp only [update_html_file, h0]
    rw [if_neg (by simp)]
    split <;> rfl
  rw [hfst]
  cases hsc : subStr scriptPat (applyHead c).1 with
  | true =>
    simp only [applyScript, hsc, if_true]
    exact hrmark
  | false =>
    cases hq : scriptBodySearch (applyHead c).1 with
    | none =>
      simp only [applyScript, hsc, Bool.false_eq_true, if_false, hq]
      exact hrmark
    | some q =>
      have happ : (applyScript (applyHead c).1).1 =
          (applyHead c).1.take q ++ scriptIns ++ (applyHead c).1.drop q := by
        simp [applyScript, hsc, hq]
      rw [happ]
      obtain ⟨hql, hqc⟩ := scriptBodySearch_body_char hq
      refine subStr_preserved_insert (le_of_lt hql) hrmark ?_
      intro i hi
      by_contra hcon
      push_neg at hcon
      exact no_cut_of_char_not_mem hqc (by decide) hi (by omega) (by omega)

/-- C1 counterexample: the file content `cdn.tailwindcss.com` is a
candidate (it matches the CDN pattern), but it has neither anchor, so the
first run makes no change and the second run again reports the
"could not modify" skip, not "skipped, already present". -/
theorem c1_counterexample :
    subStr tailwindPat "cdn.tailwindcss.com".toList = true ∧
    update_html_file "cdn.tailwindcss.com".toList =
      ("cdn.tailwindcss.com".toList, UpdateStatus.skippedNoChange) ∧
    update_html_file (update_html_file "cdn.tailwindcss.com".toList).1 =
      ("cdn.tailwindcss.com".toList, UpdateStatus.skippedNoChange) ∧
    UpdateStatus.skippedNoChange ≠ UpdateStatus.skippedAlready :=
  ⟨by decide, by decide, by decide, by decide⟩

/-- C1 amended: a second call to `update_html_file` on any file produced
by a first call leaves the bytes unchanged and reports a skip — as
"already present" when the theme-resource marker is now in the file (in
particular whenever the head anchor matched), and as "could not modify"
otherwise. -/
theorem c1_amended_idempotence (c : List Char) :
    (update_html_file (update_html_file c).1).1 = (update_html_file c).1 ∧
    ((update_html_file (update_html_file c).1).2 = UpdateStatus.skippedAlready ∨
      (update_html_file (update_html_file c).1).2 = UpdateStatus.skippedNoChange) := by
  cases h0 : subStr resourcesPat c with
  | true =>
    have h1 := c6_marker_file_never_modified c h0
    rw [h1]
    exact ⟨by rw [h1], Or.inl (by rw [h1])⟩
  | false =>
    cases hm : materialSearchEnd c with
    | some p =>
      have hmark := update_head_some_marker h0 hm
      have h2 := c6_marker_file_never_modified _ hmark
      rw [h2]
      exact ⟨rfl, Or.inl rfl⟩
    | none =>
      cases hsp : subStr scriptPat c with
      | true =>
        have hupd : update_html_file c = (c, .skippedNoChange) := by
          simp [update_html_file, h0, applyHead, hm, applyScript, hsp]
        rw [hupd]
        exact ⟨by rw [hupd], Or.inr (by rw [hupd])⟩
      | false =>
        cases hq : scriptBodySearch c with
        | none =>
          have hupd : update_html_file c = (c, .skippedNoChange) := by
            simp [update_html_file, h0, applyHead, hm, applyScript, hsp, hq]
          rw [hupd]
          exact ⟨by rw [hupd], Or.inr (by rw [hupd])⟩
        | some q =>
          have hupd : update_html_file c =
              (c.take q ++ scriptIns ++ c.drop q, .updated) := by
            simp [update_html_file, h0, applyHead, hm, applyScript, hsp, hq]
          have hcsplit : c.take q ++ c.drop q = c := List.take_append_drop q c
          have hres1 : subStr resourcesPat (c.take q ++ scriptIns ++ c.drop q) = false := by
            apply subStr_splice_false (by decide) (by decide) (by decide)
            rw [hcsplit]
            exact h0
          have hmat1 : materialSearchEnd (c.take q ++ scriptIns ++ c.drop q) = none := by
            apply materialSearchEnd_splice_none
            rw [hcsplit]
            exact hm
          have hsp1 : subStr scriptPat (c.take q ++ scriptIns ++ c.drop q) = true :=
            subStr_scriptPat_splice _ _
          have hupd2 : update_html_file (c.take q ++ scriptIns ++ c.drop q) =
              (c.take q ++ scriptIns ++ c.drop q, .skippedNoChange) :=
            update_eq_skipNoChange_of_marker hres1 hmat1 hsp1
          rw [hupd, hupd2]
          exact ⟨rfl, Or.inr rfl⟩

/-! ### Counting the markers after both insertions -/

theorem wsLen_append_lt {u z : List Char} (h : wsLen (u ++ z) < u.length) :
    wsLen u = wsLen (u ++ z) := by
  rcases (wsLen_le u).lt_or_eq with hlt | heq
  · exact (wsLen_append_of_stop hlt).symm
  · exfalso
    rw [wsLen_append_of_all (all_of_wsLen_eq_length heq)] at h
    omega

theorem noRightStraddle_of_noRightOcc {eqv : Char → Char → Bool} {p x : List Char}
    (h : noRightOcc eqv p x = true) : noRightStraddle eqv p x = true := by
  rw [noRightStraddle, List.all_eq_true]
  intro d hd
  have := List.all_eq_true.1 h d hd
  rw [this]
  simp

theorem subStr_take_false {p l : List Char} {n : Nat} (hp : 0 < p.length)
    (h : subStr p l = false) : subStr p (l.take n) = false := by
  cases hs : subStr p (l.take n) with
  | false => rfl
  | true =>
    exfalso
    rcases subStr_iff.1 hs with ⟨i, hi⟩
    by_cases hin : i < (l.take n).length
    · have hlen := matchPre_length hi
      simp only [List.length_drop] at hlen
      have hsplit : l.drop i = (l.take n).drop i ++ l.drop n := by
        conv_lhs => rw [← List.take_append_drop n l]
        rw [List.drop_append_of_le_length (by omega)]
      have : matchPre chEq p (l.drop i) = true := by
        rw [hsplit, matchPre_append_left _ (by simp only [List.length_drop]; omega)]
        exact hi
      exact absurd (subStr_iff.2 ⟨i, this⟩) (by simp [h])
    · rw [List.drop_eq_nil_of_le (by omega)] at hi
      rw [matchPre_pos_nil hp] at hi
      cases hi

theorem subStr_drop_false {p l : List Char} {n : Nat}
    (h : subStr p l = false) : subStr p (l.drop n) = false := by
  cases hs : subStr p (l.drop n) with
  | false => rfl
  | true =>
    exfalso
    rcases subStr_iff.1 hs with ⟨i, hi⟩
    rw [List.drop_drop] at hi
    exact absurd (subStr_iff.2 ⟨n + i, hi⟩) (by simp [h])

theorem countOcc_splice {p x a b : List Char} (hp : 0 < p.length)
    (hL : noLeftStraddle chEq p x = true) (hRS : noRightStraddle chEq p x = true) :
    countOcc p (a ++ x ++ b) = countOcc p a + countOcc p x + countOcc p b := by
  rw [List.append_assoc]
  have h1 : countOcc p (a ++ (x ++ b)) = countOcc p a + countOcc p (x ++ b) := by
    refine countOcc_append hp ?_
    intro i hi hlen
    cases hmp : matchPre chEq p ((a ++ (x ++ b)).drop i) with
    | false => rfl
    | true =>
      exfalso
      rw [List.drop_append_of_le_length (by omega)] at hmp
      have hm := matchPre_split hmp (by simp [List.length_drop]; omega)
      have htake := matchPre_take_append (z := x) hm
      have hlen2 : (a.drop i).length = a.length - i := by simp [List.length_drop]
      rw [hlen2] at htake
      have := noLeftStraddle_spec hL (m := a.length - i) (by omega) (by omega)
      rw [this] at htake
      cases htake
  have h2 : countOcc p (x ++ b) = countOcc p x + countOcc p b := by
    refine countOcc_append hp ?_
    intro d hd hlen
    cases hmp : matchPre chEq p ((x ++ b).drop d) with
    | false => rfl
    | true =>
      exfalso
      rw [List.drop_append_of_le_length (by omega)] at hmp
      have htake := matchPre_take_append hmp
      have hlen2 : (x.drop d).length = x.length - d := by simp [List.length_drop]
      rw [hlen2] at htake
      have := noRightStraddle_spec hRS hd (by omega)
      rw [this] at htake
      cases htake
  rw [h1, h2]
  omega

theorem countOcc_cut {p l : List Char} {q : Nat} {ch : Char} (hp : 0 < p.length)
    (hq : q ≤ l.length) (hch : l[q]? = some ch) (hmem : ch ∉ p) :
    countOcc p l = countOcc p (l.take q) + countOcc p (l.drop q) := by
  conv_lhs => rw [← List.take_append_drop q l]
  refine countOcc_append hp ?_
  intro i hi hlen
  cases hmp : matchPre chEq p ((l.take q ++ l.drop q).drop i) with
  | false => rfl
  | true =>
    exfalso
    rw [List.take_append_drop] at hmp
    simp only [List.length_take] at hi hlen
    exact no_cut_of_char_not_mem hch hmem hmp (by omega) (by omega)

/-! ### Where the head insertion lands

`material_match.end()` is the position right after `>` (or after the
whitespace following it): the characters just before it are a maximal
whitespace run preceded by `>`, which is preceded by `/`, by the closing
quote of `rel="stylesheet"`, or by whitespace.  These facts exclude the
insertion point from splitting a script/body adjacency. -/

theorem materialSearchEnd_pos_facts {l : List Char} {p : Nat}
    (h : materialSearchEnd l = some p) :
    p ≤ l.length ∧
    ∃ s, 2 ≤ s ∧ s ≤ p ∧
      (∀ j, s ≤ j → j < p → ∃ ch, l[j]? = some ch ∧ isPySpace ch = true) ∧
      l[s-1]? = some '>' ∧
      (∃ ch2, l[s-2]? = some ch2 ∧ (ch2 = '/' ∨ ch2 = '"' ∨ isPySpace ch2 = true)) := by
  have hrL : relStylesheet.length = 16 := by decide
  rcases (searchGen_eq_some_iff (by decide) l p).1 h with ⟨i, n1, hin1, hfi1, _⟩
  cases hm0 : matchPre chEq materialLit (l.drop i) with
  | false =>
    rw [materialMatchAt, if_neg (ne_true_of_eq_false hm0)] at hfi1
    cases hfi1
  | true =>
    simp only [materialMatchAt, hm0, if_true] at hfi1
    rcases Option.map_eq_some'.1 hfi1 with ⟨n2, hts, hn2⟩
    rw [List.drop_drop] at hts
    rcases (searchGen_eq_some_iff (by decide) _ n2).1 hts with ⟨k, n3, hkn, htm, _⟩
    rw [List.drop_drop] at htm
    cases hrel : matchPre chEq relStylesheet (l.drop (i + materialLit.length + k)) with
    | false =>
      rw [tailMatchAt, if_neg (ne_true_of_eq_false hrel)] at htm
      cases htm
    | true =>
      rw [tailMatchAt_of_pre hrel] at htm
      have hE1 : (l.drop (i + materialLit.length + k)).drop relStylesheet.length =
          l.drop (i + materialLit.length + k + relStylesheet.length) := by
        rw [List.drop_drop]
      rw [hE1] at htm
      have hE2 : (l.drop (i + materialLit.length + k + relStylesheet.length)).drop
            (wsLen (l.drop (i + materialLit.length + k + relStylesheet.length))) =
          l.drop (i + materialLit.length + k + relStylesheet.length +
            wsLen (l.drop (i + materialLit.length + k + relStylesheet.length))) := by
        rw [List.drop_drop]
      rw [hE2] at htm
      set W := wsLen (l.drop (i + materialLit.length + k + relStylesheet.length)) with hWdef
      set M := i + materialLit.length + k + relStylesheet.length + W with hMdef
      split at htm
      · rename_i rest hcase
        simp only [Option.some_inj] at htm
        have hclen := congrArg List.length hcase
        simp only [List.length_drop, List.length_cons] at hclen
        have hrest : l.drop (M + 2) = rest := by
          have h2 := congrArg (List.drop 2) hcase
          rw [List.drop_drop] at h2
          simpa using h2
        have hwr := wsLen_le rest
        have hp_eq : p = M + 2 + wsLen rest := by omega
        refine ⟨by omega, M + 2, by omega, by omega, ?_, ?_, ?_⟩
        · intro j hjs hjp
          rcases getElem?_lt_wsLen (l := rest) (j := j - (M + 2)) (by omega)
            with ⟨ch, hch, hws⟩
          rw [← hrest, List.getElem?_drop] at hch
          have hidx : M + 2 + (j - (M + 2)) = j := by omega
          rw [hidx] at hch
          exact ⟨ch, hch, hws⟩
        · have h1 : (l.drop M)[1]? = some '>' := by
            rw [hcase]
            simp
          rw [List.getElem?_drop] at h1
          exact h1
        · refine ⟨'/', ?_, Or.inl rfl⟩
          have h0 : (l.drop M)[0]? = some '/' := by
            rw [hcase]
            simp
          rw [List.getElem?_drop] at h0
          have hidx : M + 0 = M + 2 - 2 := by omega
          rw [hidx] at h0
          exact h0
      · rename_i rest hcase
        simp only [Option.some_inj] at htm
        have hclen := congrArg List.length hcase
        simp only [List.length_drop, List.length_cons] at hclen
        have hrest : l.drop (M + 1) = rest := by
          have h2 := congrArg (List.drop 1) hcase
          rw [List.drop_drop] at h2
          simpa using h2
        have hwr := wsLen_le rest
        have hp_eq : p = M + 1 + wsLen rest := by omega
        refine ⟨by omega, M + 1, by omega, by omega, ?_, ?_, ?_⟩
        · intro j hjs hjp
          rcases getElem?_lt_wsLen (l := rest) (j := j - (M + 1)) (by omega)
            with ⟨ch, hch, hws⟩
          rw [← hrest, List.getElem?_drop] at hch
          have hidx : M + 1 + (j - (M + 1)) = j := by omega
          rw [hidx] at hch
          exact ⟨ch, hch, hws⟩
        · have h0 : (l.drop M)[0]? = some '>' := by
            rw [hcase]
            simp
          rw [List.getElem?_drop] at h0
          have hidx : M + 0 = M + 1 - 1 := by omega
          rw [hidx] at h0
          exact h0
        · cases hW : W with
          | zero =>
            rcases matchPre_getElem? hrel 15 (by decide) with ⟨pc, ch, hpc, hch, heq⟩
            have hpc15 : pc = '"' := by
              have hr15 : relStylesheet[15]? = some '"' := by decide
              rw [hr15] at hpc
              injection hpc with hh
              exact hh.symm
            rw [List.getElem?_drop] at hch
            have hidx : i + materialLit.length + k + 15 = M + 1 - 2 := by omega
            rw [hidx] at hch
            refine ⟨ch, hch, Or.inr (Or.inl ?_)⟩
            have hpcch : pc = ch := by simpa [chEq] using heq
            rw [← hpcch, hpc15]
          | succ W2 =>
            rcases getElem?_lt_wsLen
                (l := l.drop (i + materialLit.length + k + relStylesheet.length))
                (j := W2) (by omega) with ⟨ch, hch, hws⟩
            rw [List.getElem?_drop] at hch
            have hidx : i + materialLit.length + k + relStylesheet.length + W2 =
                M + 1 - 2 := by omega
            rw [hidx] at hch
            exact ⟨ch, hch, Or.inr (Or.inr hws)⟩
      · cases htm

/-! ### Character-class facts for the case-insensitive patterns -/

theorem isPySpace_toNat {ch : Char} (h : isPySpace ch = true) :
    ch.toNat = 32 ∨ ch.toNat = 9 ∨ ch.toNat = 10 ∨ ch.toNat = 13 ∨
      ch.toNat = 11 ∨ ch.toNat = 12 := by
  simp only [isPySpace, Bool.or_eq_true, beq_iff_eq] at h
  rcases h with ((((h | h) | h) | h) | h) | h <;> subst h <;> decide

theorem ciEq_pyspace {pc ch : Char} (h : ciEq pc ch = true)
    (hws : isPySpace ch = true) : isPySpace pc = true := by
  rcases ciEq_toNat h with h1 | h1 | h1
  · rw [h1] at hws
    exact hws
  · exfalso
    obtain ⟨he, h65, h90⟩ := h1
    rcases isPySpace_toNat hws with h2 | h2 | h2 | h2 | h2 | h2 <;> omega
  · exfalso
    obtain ⟨he, h65, h90⟩ := h1
    rcases isPySpace_toNat hws with h2 | h2 | h2 | h2 | h2 | h2 <;> omega

theorem ciEq_right_gt {pc : Char} (h : ciEq pc '>' = true) : pc = '>' := by
  rcases ciEq_toNat h with h1 | h1 | h1
  · exact h1.symm
  · exfalso
    obtain ⟨he, h65, h90⟩ := h1
    have h62 : ('>' : Char).toNat = 62 := by decide
    omega
  · exfalso
    obtain ⟨he, h65, h90⟩ := h1
    have h62 : ('>' : Char).toNat = 62 := by decide
    omega

theorem take_wsLen_all (l : List Char) : (l.take (wsLen l)).all isPySpace = true := by
  induction l with
  | nil => rfl
  | cons c cs ih =>
    cases hsp : isPySpace c with
    | false =>
      rw [wsLen_cons_of_not_space hsp]
      rfl
    | true =>
      rw [wsLen_cons_of_space hsp, List.take_succ_cons]
      simp [List.all_cons, hsp, ih]

/-! ### Structure of a script/body-adjacency match -/

theorem scriptBodyMatchAt_destruct {l : List Char} {n : Nat}
    (h : scriptBodyMatchAt l = some n) :
    matchPre ciEq scriptCloseLit l = true ∧
    n = 9 + wsLen (l.drop 9) ∧
    matchPre ciEq bodyCloseLit (l.drop n) = true := by
  have h9 : scriptCloseLit.length = 9 := by decide
  cases hpre : matchPre ciEq scriptCloseLit l with
  | false =>
    rw [scriptBodyMatchAt, if_neg (ne_true_of_eq_false hpre)] at h
    cases h
  | true =>
    simp only [scriptBodyMatchAt, hpre, if_true] at h
    rw [h9] at h
    cases hbody : matchPre ciEq bodyCloseLit ((l.drop 9).drop (wsLen (l.drop 9))) with
    | false =>
      rw [if_neg (ne_true_of_eq_false hbody)] at h
      cases h
    | true =>
      rw [if_pos hbody] at h
      simp only [Option.some_inj] at h
      rw [List.drop_drop, h] at hbody
      exact ⟨rfl, h.symm, hbody⟩

theorem scriptBodyMatchAt_build {l w rest : List Char}
    (h9 : matchPre ciEq scriptCloseLit l = true)
    (hd : l.drop 9 = w ++ '<' :: rest)
    (hw : w.all isPySpace = true)
    (hb : matchPre ciEq bodyCloseLit ('<' :: rest) = true) :
    scriptBodyMatchAt l = some (9 + w.length) := by
  have hlen : scriptCloseLit.length = 9 := by decide
  have hws : wsLen (l.drop 9) = w.length := by
    rw [hd, wsLen_append_of_all hw, wsLen_cons_of_not_space (by decide)]
    rfl
  have hdrop2 : (l.drop 9).drop w.length = '<' :: rest := by
    rw [hd, append_drop_self]
  simp only [scriptBodyMatchAt, h9, if_true, hlen, hws, hdrop2]
  rw [if_pos hb]

theorem scriptBodySearch_body_match {l : List Char} {q : Nat}
    (h : scriptBodySearch l = some q) :
    matchPre ciEq bodyCloseLit (l.drop q) = true := by
  rcases (searchGen_eq_some_iff (by decide) l q).1 h with ⟨i, n, hin, hfi, _⟩
  obtain ⟨_, _, hb⟩ := scriptBodyMatchAt_destruct hfi
  rw [List.drop_drop, hin] at hb
  exact hb

theorem bodyClose_head_lt {l : List Char} {q : Nat}
    (h : matchPre ciEq bodyCloseLit (l.drop q) = true) :
    q + 7 ≤ l.length ∧ l[q]? = some '<' := by
  have hlen := matchPre_length h
  simp only [List.length_drop] at hlen
  have h7 : bodyCloseLit.length = 7 := by decide
  rw [h7] at hlen
  refine ⟨by omega, ?_⟩
  cases hcq : l.drop q with
  | nil =>
    exfalso
    have := congrArg List.length hcq
    simp only [List.length_drop, List.length_nil] at this
    omega
  | cons ch z =>
    rw [hcq] at h
    have hci : ciEq '<' ch = true := by
      have hb : bodyCloseLit = '<' :: "/body>".toList := by decide
      rw [hb] at h
      simp only [matchPre, Bool.and_eq_true] at h
      exact h.1
    have hch : ch = '<' := ciEq_eq_lt hci
    subst hch
    have h0 : (l.drop q)[0]? = some '<' := by
      rw [hcq]
      simp
    rw [List.getElem?_drop] at h0
    simpa using h0

theorem insert_outside_adjacency {l : List Char} {p i q : Nat}
    (hm : materialSearchEnd l = some p)
    (hsc : matchPre ciEq scriptCloseLit (l.drop i) = true)
    (hws : ∀ j, i + 9 ≤ j → j < q → ∃ ch, l[j]? = some ch ∧ isPySpace ch = true)
    (hbc : matchPre ciEq bodyCloseLit (l.drop q) = true) :
    p ≤ i ∨ q + 7 ≤ p := by
  by_contra hcon
  push_neg at hcon
  obtain ⟨hip, hpq⟩ := hcon
  obtain ⟨hpl, s, hs2, hsp, hwsrun, hgt, ch2, hch2, hch2cases⟩ :=
    materialSearchEnd_pos_facts hm
  have hlen9 : scriptCloseLit.length = 9 := by decide
  have hlen7 : bodyCloseLit.length = 7 := by decide
  have hsc9 : ∀ j, j < 9 → ∃ pc ch, scriptCloseLit[j]? = some pc ∧
      l[i + j]? = some ch ∧ ciEq pc ch = true := by
    intro j hj
    rcases matchPre_getElem? hsc j (by omega) with ⟨pc, ch, hpc, hch, heq⟩
    rw [List.getElem?_drop] at hch
    exact ⟨pc, ch, hpc, hch, heq⟩
  have hbc7 : ∀ j, j < 7 → ∃ pc ch, bodyCloseLit[j]? = some pc ∧
      l[q + j]? = some ch ∧ ciEq pc ch = true := by
    intro j hj
    rcases matchPre_getElem? hbc j (by omega) with ⟨pc, ch, hpc, hch, heq⟩
    rw [List.getElem?_drop] at hch
    exact ⟨pc, ch, hpc, hch, heq⟩
  have hsc_nws : ∀ j, j < 9 → ∀ ch, l[i + j]? = some ch → isPySpace ch = false := by
    intro j hj ch hch
    rcases hsc9 j hj with ⟨pc, ch', hpc, hch', heq⟩
    rw [hch] at hch'
    injection hch' with he
    subst he
    cases hw : isPySpace ch with
    | false => rfl
    | true =>
      exfalso
      have hpcws : isPySpace pc = true := ciEq_pyspace heq hw
      have hall : scriptCloseLit.all (fun x => !(isPySpace x)) = true := by decide
      have := List.all_eq_true.1 hall pc (List.getElem?_mem hpc)
      simp only [Bool.not_eq_true'] at this
      rw [hpcws] at this
      cases this
  have hsc_gt : ∀ j, j < 9 → l[i + j]? = some '>' → j = 8 := by
    intro j hj hch
    rcases hsc9 j hj with ⟨pc, ch', hpc, hch', heq⟩
    rw [hch] at hch'
    injection hch' with he
    rw [← he] at heq
    have hpc_gt : pc = '>' := ciEq_right_gt heq
    rw [hpc_gt] at hpc
    interval_cases j <;> first | rfl | exact absurd hpc (by decide)
  have hbc_gt : ∀ j, j < 7 → l[q + j]? = some '>' → j = 6 := by
    intro j hj hch
    rcases hbc7 j hj with ⟨pc, ch', hpc, hch', heq⟩
    rw [hch] at hch'
    injection hch' with he
    rw [← he] at heq
    have hpc_gt : pc = '>' := ciEq_right_gt heq
    rw [hpc_gt] at hpc
    interval_cases j <;> first | rfl | exact absurd hpc (by decide)
  have hs_ne : s ≠ i + 9 := by
    intro hse
    rcases hsc9 7 (by omega) with ⟨pc, ch', hpc, hch', heq⟩
    have hpct : pc = 't' := by
      have h7 : scriptCloseLit[7]? = some 't' := by decide
      rw [h7] at hpc
      injection hpc with h'
      exact h'.symm
    subst hpct
    have hidx : s - 2 = i + 7 := by omega
    rw [hidx] at hch2
    rw [hch2] at hch'
    injection hch' with he
    rcases hch2cases with hcc | hcc | hcc
    · rw [← he, hcc] at heq
      exact absurd heq (by decide)
    · rw [← he, hcc] at heq
      exact absurd heq (by decide)
    · have hwc : isPySpace ch' = true := by
        rw [← he]
        exact hcc
      have := ciEq_pyspace heq hwc
      exact absurd this (by decide)
  have hs9 : i + 9 ≤ s := by
    by_contra hs9n
    push_neg at hs9n
    by_cases hpi9 : p ≤ i + 9
    · by_cases hsp' : s = p
      · have hj : p - 1 - i < 9 := by omega
        have hch : l[i + (p - 1 - i)]? = some '>' := by
          have hx : i + (p - 1 - i) = s - 1 := by omega
          rw [hx]
          exact hgt
        have := hsc_gt _ hj hch
        omega
      · have hslt : s < p := by omega
        rcases hwsrun (p - 1) (by omega) (by omega) with ⟨ch, hch, hw⟩
        have hch' : l[i + (p - 1 - i)]? = some ch := by
          have hx : i + (p - 1 - i) = p - 1 := by omega
          rw [hx]
          exact hch
        have := hsc_nws _ (by omega) ch hch'
        rw [hw] at this
        cases this
    · rcases hwsrun (i + 8) (by omega) (by omega) with ⟨ch, hch, hw⟩
      have := hsc_nws 8 (by omega) ch hch
      rw [hw] at this
      cases this
  have hs10 : i + 10 ≤ s := by
    rcases Nat.lt_or_ge s (i + 10) with hlt | hge
    · exact absurd (by omega) hs_ne
    · exact hge
  by_cases hq' : s - 1 < q
  · rcases hws (s - 1) (by omega) hq' with ⟨ch, hch, hw⟩
    rw [hgt] at hch
    injection hch with he
    rw [← he] at hw
    exact absurd hw (by decide)
  · push_neg at hq'
    have hj : s - 1 - q < 6 := by omega
    have hch : l[q + (s - 1 - q)]? = some '>' := by
      have hx : q + (s - 1 - q) = s - 1 := by omega
      rw [hx]
      exact hgt
    have := hbc_gt _ (by omega) hch
    omega

theorem scriptBodySearch_eq_none_iff {l : List Char} :
    scriptBodySearch l = none ↔ ∀ i, scriptBodyMatchAt (l.drop i) = none :=
  searchGen_eq_none_iff (by decide) l

theorem scriptBodySearch_insert_some {l : List Char} {p q : Nat}
    (hm : materialSearchEnd l = some p)
    (hq : scriptBodySearch l = some q) :
    ∃ v, scriptBodySearch (l.take p ++ headIns ++ l.drop p) = some v := by
  cases hr : scriptBodySearch (l.take p ++ headIns ++ l.drop p) with
  | some v => exact ⟨v, rfl⟩
  | none =>
    exfalso
    rw [scriptBodySearch_eq_none_iff] at hr
    rcases (searchGen_eq_some_iff (by decide) l q).1 hq with ⟨i, n, hin, hfi, _⟩
    obtain ⟨hsc, hn, hbc⟩ := scriptBodyMatchAt_destruct hfi
    rw [List.drop_drop] at hn hbc
    rw [hin] at hbc
    have hpl : p ≤ l.length := (materialSearchEnd_pos_facts hm).1
    have hAlen : (l.take p).length = p := by
      simp only [List.length_take]
      omega
    have hwsj : ∀ j, i + 9 ≤ j → j < q → ∃ ch, l[j]? = some ch ∧ isPySpace ch = true := by
      intro j hj1 hj2
      have hjw : j - (i + 9) < wsLen (l.drop (i + 9)) := by omega
      rcases getElem?_lt_wsLen hjw with ⟨ch, hch, hw⟩
      rw [List.getElem?_drop] at hch
      have hx : i + 9 + (j - (i + 9)) = j := by omega
      rw [hx] at hch
      exact ⟨ch, hch, hw⟩
    rcases insert_outside_adjacency hm hsc hwsj hbc with hpi | hqp
    · have hdrop : (l.take p ++ headIns ++ l.drop p).drop (i + headIns.length) =
          l.drop i := by
        rw [List.append_assoc, drop_append_ge (by rw [hAlen]; omega),
          drop_append_ge (by omega), hAlen, List.drop_drop]
        congr 1
        omega
      have hnone := hr (i + headIns.length)
      rw [hdrop, hfi] at hnone
      cases hnone
    · obtain ⟨hq7, hql⟩ := bodyClose_head_lt hbc
      have hW : wsLen (l.drop (i + 9)) = q - (i + 9) := by omega
      obtain ⟨w, hwdef⟩ : ∃ w : List Char, w = (l.drop (i + 9)).take (q - (i + 9)) :=
        ⟨_, rfl⟩
      have hwall : w.all isPySpace = true := by
        rw [hwdef, ← hW]
        exact take_wsLen_all _
      have hwlen : w.length = q - (i + 9) := by
        rw [hwdef]
        simp only [List.length_take, List.length_drop]
        omega
      have hdq : l.drop q = '<' :: l.drop (q + 1) := by
        have hqlen : q < l.length := by omega
        rw [List.drop_eq_getElem_cons hqlen]
        congr 1
        have h1 : l[q]? = some l[q] := List.getElem?_eq_getElem hqlen
        rw [hql] at h1
        injection h1 with h2
        exact h2.symm
      have hsplit : l.drop (i + 9) = w ++ l.drop q := by
        conv_lhs => rw [← List.take_append_drop (q - (i + 9)) (l.drop (i + 9))]
        congr 1
        · exact hwdef.symm
        · rw [List.drop_drop]
          congr 1
          omega
      have htk : (l.take p).drop (i + 9) = w ++ (l.drop q).take (p - q) := by
        rw [List.drop_take p (i + 9) l, hsplit]
        have hx : p - (i + 9) = w.length + (p - q) := by omega
        rw [hx, List.take_append]
      have htk2 : (l.drop q).take (p - q) = '<' :: (l.drop (q + 1)).take (p - q - 1) := by
        rw [hdq]
        have hx : p - q = (p - q - 1) + 1 := by omega
        conv_lhs => rw [hx]
        rw [List.take_succ_cons]
      have hD : (l.take p ++ headIns ++ l.drop p).drop i =
          (l.take p).drop i ++ (headIns ++ l.drop p) := by
        rw [List.append_assoc, List.drop_append_of_le_length (by rw [hAlen]; omega)]
      have hD9 : ((l.take p ++ headIns ++ l.drop p).drop i).drop 9 =
          (l.take p).drop (i + 9) ++ (headIns ++ l.drop p) := by
        rw [hD, List.drop_append_of_le_length
          (by simp only [List.length_drop, hAlen]; omega)]
        congr 1
        rw [List.drop_drop]
      have hd0 : l.drop i = (l.take p).drop i ++ l.drop p := by
        conv_lhs => rw [← List.take_append_drop p l]
        rw [List.drop_append_of_le_length (by rw [hAlen]; omega)]
      have h9len : scriptCloseLit.length ≤ ((l.take p).drop i).length := by
        simp only [List.length_drop, hAlen]
        have h9 : scriptCloseLit.length = 9 := by decide
        omega
      have hsc1 : matchPre ciEq scriptCloseLit
          ((l.take p ++ headIns ++ l.drop p).drop i) = true := by
        rw [hD, matchPre_append_left _ h9len]
        rw [hd0, matchPre_append_left _ h9len] at hsc
        exact hsc
      have h7 : bodyCloseLit.length = 7 := by decide
      have hblen : bodyCloseLit.length ≤
          ('<' :: (l.drop (q + 1)).take (p - q - 1)).length := by
        simp only [List.length_cons, List.length_take, List.length_drop, h7]
        omega
      have hbsplit : l.drop q = ('<' :: (l.drop (q + 1)).take (p - q - 1)) ++
          (l.drop (q + 1)).drop (p - q - 1) := by
        rw [hdq, List.cons_append, List.take_append_drop]
      have hb1 : matchPre ciEq bodyCloseLit
          ('<' :: ((l.drop (q + 1)).take (p - q - 1) ++ (headIns ++ l.drop p))) = true := by
        have h1 : matchPre ciEq bodyCloseLit
            ('<' :: (l.drop (q + 1)).take (p - q - 1)) = true := by
          rw [hbsplit] at hbc
          rwa [matchPre_append_left _ hblen] at hbc
        rw [← List.cons_append, matchPre_append_left _ hblen]
        exact h1
      have hdfull : ((l.take p ++ headIns ++ l.drop p).drop i).drop 9 =
          w ++ '<' :: ((l.drop (q + 1)).take (p - q - 1) ++ (headIns ++ l.drop p)) := by
        rw [hD9, htk, htk2]
        simp only [List.cons_append, List.append_assoc]
      have hbuild := scriptBodyMatchAt_build hsc1 hdfull hwall hb1
      have hnone := hr i
      rw [hbuild] at hnone
      cases hnone

/-- Core correctness of `update_html_file` on a file with the head anchor,
the script/body adjacency and neither theme marker: the report is
"updated", each marker occurs exactly once in the result, and the result
is the original content with the two snippets spliced in. -/
theorem update_both_anchors_spec (c : List Char) (p q : Nat)
    (hres : subStr resourcesPat c = false)
    (hscr : subStr scriptPat c = false)
    (hm : materialSearchEnd c = some p)
    (hq : scriptBodySearch c = some q) :
    (update_html_file c).2 = UpdateStatus.updated ∧
    countOcc resourcesPat (update_html_file c).1 = 1 ∧
    countOcc scriptPat (update_html_file c).1 = 1 ∧
    ∃ u v w, c = u ++ v ++ w ∧
      ((update_html_file c).1 = u ++ headIns ++ v ++ scriptIns ++ w ∨
       (update_html_file c).1 = u ++ scriptIns ++ v ++ headIns ++ w) := by
  have hpres : (0 : Nat) < resourcesPat.length := by decide
  have hpscr : (0 : Nat) < scriptPat.length := by decide
  have dSH1 : noLeftStraddle chEq scriptPat headIns = true := by decide
  have dSHocc : noRightOcc chEq scriptPat headIns = true := by decide
  have dRH1 : noLeftStraddle chEq resourcesPat headIns = true := by decide
  have dRH2 : noRightStraddle chEq resourcesPat headIns = true := by decide
  have dSH2 : noRightStraddle chEq scriptPat headIns = true := by decide
  have dRS1 : noLeftStraddle chEq resourcesPat scriptIns = true := by decide
  have dRS2 : noRightStraddle chEq resourcesPat scriptIns = true := by decide
  have dSS1 : noLeftStraddle chEq scriptPat scriptIns = true := by decide
  have dSS2 : noRightStraddle chEq scriptPat scriptIns = true := by decide
  have dBH1 : noLeftStraddle ciEq bodyCloseLit headIns = true := by decide
  have dBHocc : noRightOcc ciEq bodyCloseLit headIns = true := by decide
  have hpl : p ≤ c.length := (materialSearchEnd_pos_facts hm).1
  have hAlen : (c.take p).length = p := by
    simp only [List.length_take]
    omega
  have hcsplit : c.take p ++ c.drop p = c := List.take_append_drop p c
  have hscr1 : subStr scriptPat (c.take p ++ headIns ++ c.drop p) = false := by
    apply subStr_splice_false hpscr dSH1 dSHocc
    rw [hcsplit]
    exact hscr
  obtain ⟨q', hq'⟩ := scriptBodySearch_insert_some hm hq
  obtain ⟨e, he⟩ : ∃ e : List Char, e = c.take p ++ headIns ++ c.drop p := ⟨_, rfl⟩
  rw [← he] at hscr1 hq'
  have happ1 : applyHead c = (e, true) := by
    simp [applyHead, hm, he]
  have hupd : update_html_file c =
      (e.take q' ++ scriptIns ++ e.drop q', .updated) := by
    simp [update_html_file, hres, happ1, applyScript, hscr1, hq']
  have hcd_res : countOcc resourcesPat e = 1 := by
    rw [he, countOcc_splice hpres dRH1 dRH2,
      countOcc_eq_zero_of_not_subStr (subStr_take_false hpres hres),
      countOcc_eq_zero_of_not_subStr (subStr_drop_false hres)]
    decide
  have hcd_scr : countOcc scriptPat e = 0 := by
    rw [he, countOcc_splice hpscr dSH1 dSH2,
      countOcc_eq_zero_of_not_subStr (subStr_take_false hpscr hscr),
      countOcc_eq_zero_of_not_subStr (subStr_drop_false hscr)]
    decide
  obtain ⟨hql, hqc⟩ := scriptBodySearch_body_char hq'
  have hres_res : countOcc resourcesPat (e.take q' ++ scriptIns ++ e.drop q') = 1 := by
    rw [countOcc_splice hpres dRS1 dRS2]
    have hcut := countOcc_cut hpres (le_of_lt hql) hqc (by decide)
    have h0 : countOcc resourcesPat scriptIns = 0 := by decide
    omega
  have hscr_res : countOcc scriptPat (e.take q' ++ scriptIns ++ e.drop q') = 1 := by
    rw [countOcc_splice hpscr dSS1 dSS2]
    have hcut := countOcc_cut hpscr (le_of_lt hql) hqc (by decide)
    have h0 : countOcc scriptPat scriptIns = 1 := by decide
    omega
  have hbm : matchPre ciEq bodyCloseLit (e.drop q') = true :=
    scriptBodySearch_body_match hq'
  rw [he] at hbm
  have h7 : bodyCloseLit.length = 7 := by decide
  refine ⟨by rw [hupd], by rw [hupd]; exact hres_res, by rw [hupd]; exact hscr_res, ?_⟩
  rcases occ_in_splice hbm (by decide) dBH1 dBHocc with ⟨hfit, _⟩ | ⟨hge, _⟩
  · have hq'p : q' ≤ p := by
      rw [h7, hAlen] at hfit
      omega
    refine ⟨(c.take p).take q', (c.take p).drop q', c.drop p, ?_, Or.inr ?_⟩
    · rw [List.take_append_drop, List.take_append_drop]
    · rw [hupd]
      show e.take q' ++ scriptIns ++ e.drop q' = _
      have he1 : e.take q' = (c.take p).take q' := by
        rw [he, List.append_assoc,
          List.take_append_of_le_length (by rw [hAlen]; omega)]
      have he2 : e.drop q' = (c.take p).drop q' ++ (headIns ++ c.drop p) := by
        rw [he, List.append_assoc,
          List.drop_append_of_le_length (by rw [hAlen]; omega)]
      rw [he1, he2]
      simp [List.append_assoc]
  · have hpq' : p + headIns.length ≤ q' := by
      rw [hAlen] at hge
      omega
    refine ⟨c.take p, (c.drop p).take (q' - p - headIns.length),
      (c.drop p).drop (q' - p - headIns.length), ?_, Or.inl ?_⟩
    · rw [List.append_assoc, List.take_append_drop, List.take_append_drop]
    · rw [hupd]
      show e.take q' ++ scriptIns ++ e.drop q' = _
      have he1 : e.take q' =
          (c.take p ++ headIns) ++ (c.drop p).take (q' - p - headIns.length) := by
        rw [he]
        have hx : q' = (c.take p ++ headIns).length + (q' - p - headIns.length) := by
          simp only [List.length_append, hAlen]
          omega
        conv_lhs => rw [hx]
        rw [List.take_append]
      have he2 : e.drop q' = (c.drop p).drop (q' - p - headIns.length) := by
        rw [he, drop_append_ge (by simp only [List.length_append, hAlen]; omega)]
        congr 1
        simp only [List.length_append, hAlen]
        omega
      rw [he1, he2]

/-- C5: for a file with the head anchor, the script/body adjacency and
neither theme marker, `update_html_file` reports "updated", the result
contains exactly one occurrence of each theme marker, and the result is
the original content with the two snippets spliced in (in one of the two
possible orders); nothing is deleted. -/
theorem c5_two_insertions_exact (c : List Char) (p q : Nat)
    (hres : subStr resourcesPat c = false)
    (hscr : subStr scriptPat c = false)
    (hm : materialSearchEnd c = some p)
    (hq : scriptBodySearch c = some q) :
    (update_html_file c).2 = UpdateStatus.updated ∧
    countOcc resourcesPat (update_html_file c).1 = 1 ∧
    countOcc scriptPat (update_html_file c).1 = 1 ∧
    ∃ u v w, c = u ++ v ++ w ∧
      ((update_html_file c).1 = u ++ headIns ++ v ++ scriptIns ++ w ∨
       (update_html_file c).1 = u ++ scriptIns ++ v ++ headIns ++ w) :=
  update_both_anchors_spec c p q hres hscr hm hq

/-- Witness for the C5 theorem at a concrete file content containing the
Material-icons anchor, the script/body adjacency and neither marker. -/
theorem c5_witness :
    (update_html_file
      "Material+Symbols+Outlinedrel=\"stylesheet\"></script></body>".toList).2 =
        UpdateStatus.updated ∧
    countOcc resourcesPat (update_html_file
      "Material+Symbols+Outlinedrel=\"stylesheet\"></script></body>".toList).1 = 1 ∧
    countOcc scriptPat (update_html_file
      "Material+Symbols+Outlinedrel=\"stylesheet\"></script></body>".toList).1 = 1 ∧
    ∃ u v w,
      "Material+Symbols+Outlinedrel=\"stylesheet\"></script></body>".toList =
        u ++ v ++ w ∧
      ((update_html_file
          "Material+Symbols+Outlinedrel=\"stylesheet\"></script></body>".toList).1 =
            u ++ headIns ++ v ++ scriptIns ++ w ∨
       (update_html_file
          "Material+Symbols+Outlinedrel=\"stylesheet\"></script></body>".toList).1 =
            u ++ scriptIns ++ v ++ headIns ++ w) :=
  c5_two_insertions_exact _ 42 51 (by decide) (by decide) (by decide) (by decide)

/-- C2 counterexample: a directory with the three files of the claim --
(a) no CDN reference, (b) CDN reference, no marker, both anchors,
(c) CDN reference and an existing resource marker -- ends the run with
`skipped = 1`, not `skipped = 2`: file (a) never enters the candidate
list, so it is not tallied as skipped. -/
theorem c2_counterexample :
    subStr tailwindPat "plain".toList = false ∧
    subStr tailwindPat
      "cdn.tailwindcss.comMaterial+Symbols+Outlinedrel=\"stylesheet\"></script></body>".toList = true ∧
    subStr resourcesPat
      "cdn.tailwindcss.comMaterial+Symbols+Outlinedrel=\"stylesheet\"></script></body>".toList = false ∧
    subStr scriptPat
      "cdn.tailwindcss.comMaterial+Symbols+Outlinedrel=\"stylesheet\"></script></body>".toList = false ∧
    materialSearchEnd
      "cdn.tailwindcss.comMaterial+Symbols+Outlinedrel=\"stylesheet\"></script></body>".toList = some 61 ∧
    scriptBodySearch
      "cdn.tailwindcss.comMaterial+Symbols+Outlinedrel=\"stylesheet\"></script></body>".toList = some 70 ∧
    subStr tailwindPat
      "cdn.tailwindcss.com fragments/theme :: themeResources".toList = true ∧
    subStr resourcesPat
      "cdn.tailwindcss.com fragments/theme :: themeResources".toList = true ∧
    (runMain [⟨"a.html".toList, "plain".toList⟩,
      ⟨"b.html".toList,
        "cdn.tailwindcss.comMaterial+Symbols+Outlinedrel=\"stylesheet\"></script></body>".toList⟩,
      ⟨"c.html".toList,
        "cdn.tailwindcss.com fragments/theme :: themeResources".toList⟩]).2 =
      { updated := 1, skipped := 1, errors := 0 } ∧
    ({ updated := 1, skipped := 1, errors := 0 } : Summary).skipped ≠ 2 := by
  refine ⟨by decide, by decide, by decide, by decide, by decide, by decide,
    by decide, by decide, by decide, by decide⟩

/-- C2 amended: in the three-file scenario, file (a) is excluded from the
candidate list and contributes to no counter; (b) is reported "updated"
with both insertions made (each theme marker occurs exactly once in the
new content, which is the old content with the two snippets spliced in);
(c) is reported "skipped, already present" and left unchanged; and the
summary is `updated = 1`, `skipped = 1`, `errors = 0`. -/
theorem c2_amended_three_file_run (na nb nc ca cb cc : List Char) (p q : Nat)
    ( _hna : isHtmlName na = true) (hnb : isHtmlName nb = true)
    (hnc : isHtmlName nc = true)
    (ha : subStr tailwindPat ca = false)
    (hb : subStr tailwindPat cb = true)
    (hbres : subStr resourcesPat cb = false)
    (hbscr : subStr scriptPat cb = false)
    (hbm : materialSearchEnd cb = some p)
    (hbq : scriptBodySearch cb = some q)
    (hc : subStr tailwindPat cc = true)
    (hcres : subStr resourcesPat cc = true) :
    find_html_files_with_tailwind [⟨na, ca⟩, ⟨nb, cb⟩, ⟨nc, cc⟩] =
      [⟨nb, cb⟩, ⟨nc, cc⟩] ∧
    (update_html_file cb).2 = UpdateStatus.updated ∧
    countOcc resourcesPat (update_html_file cb).1 = 1 ∧
    countOcc scriptPat (update_html_file cb).1 = 1 ∧
    (∃ u v w, cb = u ++ v ++ w ∧
      ((update_html_file cb).1 = u ++ headIns ++ v ++ scriptIns ++ w ∨
       (update_html_file cb).1 = u ++ scriptIns ++ v ++ headIns ++ w)) ∧
    update_html_file cc = (cc, UpdateStatus.skippedAlready) ∧
    (runMain [⟨na, ca⟩, ⟨nb, cb⟩, ⟨nc, cc⟩]).1 =
      [⟨na, ca⟩, ⟨nb, (update_html_file cb).1⟩, ⟨nc, cc⟩] ∧
    (runMain [⟨na, ca⟩, ⟨nb, cb⟩, ⟨nc, cc⟩]).2 =
      { updated := 1, skipped := 1, errors := 0 } := by
  obtain ⟨hs_b, hcnt1, hcnt2, hdec⟩ :=
    update_both_anchors_spec cb p q hbres hbscr hbm hbq
  have hcand_a : isCandidate ⟨na, ca⟩ = false := by
    simp [isCandidate, ha]
  have hcand_b : isCandidate ⟨nb, cb⟩ = true := by
    simp [isCandidate, hnb, hb]
  have hcand_c : isCandidate ⟨nc, cc⟩ = true := by
    simp [isCandidate, hnc, hc]
  have hupd_c : update_html_file cc = (cc, UpdateStatus.skippedAlready) := by
    simp [update_html_file, hcres]
  have hfilter : find_html_files_with_tailwind [⟨na, ca⟩, ⟨nb, cb⟩, ⟨nc, cc⟩] =
      [⟨nb, cb⟩, ⟨nc, cc⟩] := by
    simp [find_html_files_with_tailwind, List.filter, hcand_a, hcand_b, hcand_c]
  refine ⟨hfilter, hs_b, hcnt1, hcnt2, hdec, hupd_c, ?_, ?_⟩
  · simp [runMain, mainPerFile, hcand_a, hcand_b, hcand_c, hupd_c]
  · simp [runMain, hfilter, hs_b, hupd_c]

/-- Witness for the amended C2 theorem at the concrete three-file tree. -/
theorem c2_amended_witness :
    find_html_files_with_tailwind [⟨"a.html".toList, "plain".toList⟩,
      ⟨"b.html".toList,
        "cdn.tailwindcss.comMaterial+Symbols+Outlinedrel=\"stylesheet\"></script></body>".toList⟩,
      ⟨"c.html".toList,
        "cdn.tailwindcss.com fragments/theme :: themeResources".toList⟩] =
      [⟨"b.html".toList,
        "cdn.tailwindcss.comMaterial+Symbols+Outlinedrel=\"stylesheet\"></script></body>".toList⟩,
       ⟨"c.html".toList,
        "cdn.tailwindcss.com fragments/theme :: themeResources".toList⟩] ∧
    (update_html_file
      "cdn.tailwindcss.comMaterial+Symbols+Outlinedrel=\"stylesheet\"></script></body>".toList).2 =
      UpdateStatus.updated ∧
    countOcc resourcesPat (update_html_file
      "cdn.tailwindcss.comMaterial+Symbols+Outlinedrel=\"stylesheet\"></script></body>".toList).1 = 1 ∧
    countOcc scriptPat (update_html_file
      "cdn.tailwindcss.comMaterial+Symbols+Outlinedrel=\"stylesheet\"></script></body>".toList).1 = 1 ∧
    (∃ u v w,
      "cdn.tailwindcss.comMaterial+Symbols+Outlinedrel=\"stylesheet\"></script></body>".toList =
        u ++ v ++ w ∧
      ((update_html_file
          "cdn.tailwindcss.comMaterial+Symbols+Outlinedrel=\"stylesheet\"></script></body>".toList).1 =
            u ++ headIns ++ v ++ scriptIns ++ w ∨
       (update_html_file
          "cdn.tailwindcss.comMaterial+Symbols+Outlinedrel=\"stylesheet\"></script></body>".toList).1 =
            u ++ scriptIns ++ v ++ headIns ++ w)) ∧
    update_html_file
      "cdn.tailwindcss.com fragments/theme :: themeResources".toList =
      ("cdn.tailwindcss.com fragments/theme :: themeResources".toList,
        UpdateStatus.skippedAlready) ∧
    (runMain [⟨"a.html".toList, "plain".toList⟩,
      ⟨"b.html".toList,
        "cdn.tailwindcss.comMaterial+Symbols+Outlinedrel=\"stylesheet\"></script></body>".toList⟩,
      ⟨"c.html".toList,
        "cdn.tailwindcss.com fragments/theme :: themeResources".toList⟩]).1 =
      [⟨"a.html".toList, "plain".toList⟩,
       ⟨"b.html".toList, (update_html_file
        "cdn.tailwindcss.comMaterial+Symbols+Outlinedrel=\"stylesheet\"></script></body>".toList).1⟩,
       ⟨"c.html".toList,
        "cdn.tailwindcss.com fragments/theme :: themeResources".toList⟩] ∧
    (runMain [⟨"a.html".toList, "plain".toList⟩,
      ⟨"b.html".toList,
        "cdn.tailwindcss.comMaterial+Symbols+Outlinedrel=\"stylesheet\"></script></body>".toList⟩,
      ⟨"c.html".toList,
        "cdn.tailwindcss.com fragments/theme :: themeResources".toList⟩]).2 =
      { updated := 1, skipped := 1, errors := 0 } :=
  c2_amended_three_file_run "a.html".toList "b.html".toList "c.html".toList
    "plain".toList
    "cdn.tailwindcss.comMaterial+Symbols+Outlinedrel=\"stylesheet\"></script></body>".toList
    "cdn.tailwindcss.com fragments/theme :: themeResources".toList 61 70
    (by decide) (by decide) (by decide) (by decide) (by decide) (by decide)
    (by decide) (by decide) (by decide) (by decide) (by decide)
